import Mathlib

/-!
OSPREY ConfEcalc: construction of an `Assignment`.

A shallow embedding of the two `assignment.h` constructors (the sequential host
one under `src/main/cc/ConfEcalc` and the cooperative device one under
`src/main/cu/CudaConfEcalc`) and of the accessors of the constructed object.

Conventions of the embedding.

* The constructors only *store* into their four output arrays (`atoms`,
  `index_offsets`, `atom_pairs`, `conf_energies`) and never read them back; the
  only state they read is the local `offset`.  Each constructor is therefore
  embedded as the sequence of stores it performs, in program order, together
  with the running `offset`; the contents of the arrays are obtained by
  replaying the stores on the contents the arrays had before construction.
* Arrays are maps from integer indices to values; the contents of a freshly
  allocated array are a parameter.
* C++ `int`, `int32_t` and `int64_t` values are mathematical integers: counts
  and indices are taken in the range in which the C++ arithmetic does not
  overflow.  Division is the truncating C++ division (`Int.tdiv`).
* The scalar type `T` and the type `P` of the energy-term descriptors the
  `const void *` entries point to are type parameters.
* `ConfSpace`, `Pos`, `Conf` and `Array` are declared outside the three source
  files; what the constructors use of them is introduced below, each piece with
  a remark on where it comes from.
-/

namespace osprey

/-! ## Data model -/

/-- Real3 of cuda.h: a value with three components of the scalar type. -/
structure Real3 (T : Type) where
  x : T
  y : T
  z : T
deriving DecidableEq

instance {T : Type} [Zero T] : Zero (Real3 T) := ⟨⟨0, 0, 0⟩⟩

/-- Modelled from the spec: the candidate conformation `Conf` (declared outside
src): its fragment index, its internal energy, and its block of atom
coordinates (what `get_conf_atom_coords` returns for it). -/
structure Conf (T : Type) where
  frag_index : Int
  internal_energy : T
  atom_coords : List (Real3 T)

/-- Modelled from the spec: the read-only conformation-space descriptor
`ConfSpace` (declared outside src), reduced to what the constructors read:
the position count, the total atom capacity, the static atom block, the maximum
atom count of each position (`get_pos(posi).max_num_atoms`), the candidate
conformations (`get_conf(get_pos(posi), confi)`), and the four tables of
energy-term descriptors. -/
structure ConfSpace (T P : Type) where
  num_pos : Nat
  max_num_conf_atoms : Int
  static_atom_coords : List (Real3 T)
  max_num_atoms : Nat → Nat
  get_conf : Nat → Int → Conf T
  get_static_static_pair : P
  get_static_pos_pairs : Int → Int → P
  get_pos_pairs : Int → Int → P
  get_pos_pos_pairs : Int → Int → Int → Int → P

/-- Modelled from the spec: `ConfSpace::index_static_static` (declared outside
src); slot 0 is reserved for the static/static term. -/
def ConfSpace.index_static_static {T P : Type} (_cs : ConfSpace T P) : Int := 0

/-- Modelled from the spec: `ConfSpace::index_static_pos` (declared outside
src); the `num_pos` slots after slot 0 hold the static/position terms. -/
def ConfSpace.index_static_pos {T P : Type} (_cs : ConfSpace T P) (posi1 : Int) : Int :=
  1 + posi1

/-- Modelled from the spec: `ConfSpace::index_pos` (declared outside src); the
next `num_pos` slots hold the position-internal terms. -/
def ConfSpace.index_pos {T P : Type} (cs : ConfSpace T P) (posi1 : Int) : Int :=
  1 + (cs.num_pos : Int) + posi1

/-- Modelled from the spec: `ConfSpace::index_pos_pos` (declared outside src);
the remaining slots hold the ordered pairs `posi1 > posi2`, addressed by
triangular-number offset. -/
def ConfSpace.index_pos_pos {T P : Type} (cs : ConfSpace T P) (posi1 posi2 : Int) : Int :=
  1 + 2 * (cs.num_pos : Int) + Int.tdiv (posi1 * (posi1 - 1)) 2 + posi2

/-- Modelled from the spec: the static pseudo-position is indicated by an
out-of-range position index. -/
def ConfSpace.is_static {T P : Type} (cs : ConfSpace T P) (posi : Int) : Bool :=
  decide (posi < 0) || decide ((cs.num_pos : Int) ≤ posi)

/-- Modelled from the spec: the flattening function `ConfSpace::index`
(declared outside src), mapping a query of one or two positions, or of the
static pseudo-position, to its slot; the slot of two distinct positions is the
triangular slot of the larger one followed by the smaller one. -/
def ConfSpace.index {T P : Type} (cs : ConfSpace T P) (posi1 posi2 : Int) : Int :=
  if cs.is_static posi1 then
    if cs.is_static posi2 then cs.index_static_static else cs.index_static_pos posi2
  else if cs.is_static posi2 then cs.index_static_pos posi1
  else if posi1 = posi2 then cs.index_pos posi1
  else if posi1 > posi2 then cs.index_pos_pos posi1 posi2
  else cs.index_pos_pos posi2 posi1

/-- A location of one of the four output arrays of the constructor. -/
inductive Loc where
  | atoms (i : Int)
  | index_offsets (i : Int)
  | atom_pairs (i : Int)
  | conf_energies (i : Int)
deriving DecidableEq

/-- One store of the constructor into one of its four output arrays. -/
inductive Store (T P : Type) where
  | atoms (i : Int) (v : Real3 T)
  | index_offsets (i : Int) (v : Int)
  | atom_pairs (i : Int) (v : P)
  | conf_energies (i : Int) (v : T)
deriving DecidableEq

/-- The location a store targets. -/
def Store.loc {T P : Type} : Store T P → Loc
  | .atoms i _ => .atoms i
  | .index_offsets i _ => .index_offsets i
  | .atom_pairs i _ => .atom_pairs i
  | .conf_energies i _ => .conf_energies i

/-- The contents of the four output arrays. -/
structure Arrays (T P : Type) where
  atoms : Int → Real3 T
  index_offsets : Int → Int
  atom_pairs : Int → P
  conf_energies : Int → T

/-- Effect of one store on the arrays. -/
def Arrays.store {T P : Type} (m : Arrays T P) : Store T P → Arrays T P
  | .atoms i v => { m with atoms := fun k => if k = i then v else m.atoms k }
  | .index_offsets i v => { m with index_offsets := fun k => if k = i then v else m.index_offsets k }
  | .atom_pairs i v => { m with atom_pairs := fun k => if k = i then v else m.atom_pairs k }
  | .conf_energies i v => { m with conf_energies := fun k => if k = i then v else m.conf_energies k }

/-- Effect of a sequence of stores, performed from left to right. -/
def Arrays.run {T P : Type} (m : Arrays T P) (ws : List (Store T P)) : Arrays T P :=
  ws.foldl Arrays.store m

/-- The arrays hold, at the location of the store, the value of the store. -/
def Arrays.holds {T P : Type} (m : Arrays T P) : Store T P → Prop
  | .atoms i v => m.atoms i = v
  | .index_offsets i v => m.index_offsets i = v
  | .atom_pairs i v => m.atom_pairs i = v
  | .conf_energies i v => m.conf_energies i = v

/-- Two array contents agree at a location. -/
def Arrays.same_at {T P : Type} (m m2 : Arrays T P) : Loc → Prop
  | .atoms i => m.atoms i = m2.atoms i
  | .index_offsets i => m.index_offsets i = m2.index_offsets i
  | .atom_pairs i => m.atom_pairs i = m2.atom_pairs i
  | .conf_energies i => m.conf_energies i = m2.conf_energies i

/-- The constructor locals that live across the position loop: the running
write `offset`, and the stores performed so far. -/
structure Frame (T P : Type) where
  offset : Int
  stores : List (Store T P)

/-! ## Sequential construction (src/main/cc/ConfEcalc/assignment.h) -/

/-- Element stores of a bulk copy: element number `k`, `k+1`, ... of the source
goes to `dstOffset + k`, `dstOffset + k + 1`, ... -/
def copy_stores {T P : Type} (dstOffset : Int) : List (Real3 T) → Nat → List (Store T P)
  | [], _ => []
  | v :: vs, k => Store.atoms (dstOffset + k) v :: copy_stores dstOffset vs (k + 1)

/-- Modelled from the spec: `Array::copy_from(src, dstOffset)` (class `Array` is
declared outside src): copies the source block into the buffer starting at
`dstOffset` and returns the number of elements copied. -/
def copy_from {T P : Type} (src : List (Real3 T)) (dstOffset : Int) : List (Store T P) × Int :=
  (copy_stores dstOffset src 0, (src.length : Int))

/-- The call `std::memset(&atoms[offset], 0, sizeof(Real3<T>)*atoms_remaining)`:
the `atoms_remaining` elements from `offset` on become the zero vector. -/
def memset_zero {T P : Type} [Zero T] (offset atoms_remaining : Int) : List (Store T P) :=
  (List.range atoms_remaining.toNat).map (fun (k : Nat) => Store.atoms (offset + (k : Int)) 0)

/-- Lines 63-66 of the host constructor: zero out the rest of the space of the
position, when there is a rest. -/
def zero_rest {T P : Type} [Zero T] (offset atoms_remaining : Int) : List (Store T P) :=
  if atoms_remaining > 0 then memset_zero offset atoms_remaining else []

/-- Lines 48-59 of the host constructor: the loop `for posi2 = 0 .. bound-1`
over the earlier positions; `host_pair_loop cs conf posi1 frag1 posi1` is the
whole loop. -/
def host_pair_loop {T P : Type} (cs : ConfSpace T P) (conf : Nat → Int) (posi1 : Nat)
    (frag1 : Int) : Nat → List (Store T P)
  | 0 => []
  | posi2 + 1 =>
    host_pair_loop cs conf posi1 frag1 posi2 ++
      (if conf posi2 ≥ 0 then
        [Store.atom_pairs (cs.index_pos_pos posi1 posi2)
          (cs.get_pos_pos_pairs posi1 frag1 posi2 (cs.get_conf posi2 (conf posi2)).frag_index)]
      else [])

/-- Lines 25-67 of the host constructor: one iteration of the position loop. -/
def host_pos_body {T P : Type} [Zero T] (cs : ConfSpace T P) (conf : Nat → Int) (posi1 : Nat)
    (st : Frame T P) : Frame T P :=
  let offset := st.offset
  let save := [Store.index_offsets (posi1 : Int) offset]
  let confi1 := conf posi1
  if confi1 ≥ 0 then
    let pconf1 := cs.get_conf posi1 confi1
    let copied : List (Store T P) × Int := copy_from pconf1.atom_coords offset
    let num_copied := copied.2
    let offset1 := offset + num_copied
    let terms := [Store.conf_energies (posi1 : Int) pconf1.internal_energy,
      Store.atom_pairs (cs.index_static_pos posi1) (cs.get_static_pos_pairs posi1 pconf1.frag_index),
      Store.atom_pairs (cs.index_pos posi1) (cs.get_pos_pairs posi1 pconf1.frag_index)]
    let pairs := host_pair_loop cs conf posi1 pconf1.frag_index posi1
    let atoms_remaining := (cs.max_num_atoms posi1 : Int) - num_copied
    { offset := offset1 + atoms_remaining
      stores := st.stores ++ (save ++ copied.1 ++ terms ++ pairs ++ zero_rest offset1 atoms_remaining) }
  else
    let num_copied : Int := 0
    let atoms_remaining := (cs.max_num_atoms posi1 : Int) - num_copied
    { offset := offset + atoms_remaining
      stores := st.stores ++ (save ++ zero_rest offset atoms_remaining) }

/-- Lines 15-22 of the host constructor: `offset` starts at 0, the static atoms
are copied to the start of the buffer, and the static/static descriptor is
recorded. -/
def host_prologue {T P : Type} (cs : ConfSpace T P) : Frame T P :=
  let copied : List (Store T P) × Int := copy_from cs.static_atom_coords 0
  { offset := 0 + copied.2
    stores := copied.1 ++ [Store.atom_pairs cs.index_static_static cs.get_static_static_pair] }

/-- The host constructor up to and including the iterations `posi1 = 0 .. n-1` of
the position loop. -/
def host_pos_loop {T P : Type} [Zero T] (cs : ConfSpace T P) (conf : Nat → Int) : Nat → Frame T P
  | 0 => host_prologue cs
  | n + 1 => host_pos_body cs conf n (host_pos_loop cs conf n)

/-- The stores of the whole host constructor, in program order. -/
def host_stores {T P : Type} [Zero T] (cs : ConfSpace T P) (conf : Nat → Int) : List (Store T P) :=
  (host_pos_loop cs conf cs.num_pos).stores

/-- The value of `offset` when the host constructor leaves the position loop. -/
def host_final_offset {T P : Type} [Zero T] (cs : ConfSpace T P) (conf : Nat → Int) : Int :=
  (host_pos_loop cs conf cs.num_pos).offset

/-- The length of the table `_atom_pairs` allocated at line 17 of the host
constructor. -/
def host_atom_pairs_length (num_pos : Int) : Int :=
  1 + 2 * num_pos + Int.tdiv (num_pos * (num_pos - 1)) 2

/-- The constructed object: the descriptor, the assignment vector, and the four
arrays. -/
structure Assignment (T P : Type) where
  conf_space : ConfSpace T P
  conf : Nat → Int
  arrays : Arrays T P

/-- The sequential constructor; `fresh` is what the arrays hold when they are
allocated. -/
def Assignment.construct {T P : Type} [Zero T] (cs : ConfSpace T P) (conf : Nat → Int)
    (fresh : Arrays T P) : Assignment T P :=
  { conf_space := cs, conf := conf, arrays := fresh.run (host_stores cs conf) }

/-- The accessor get_atom_pairs. -/
def Assignment.get_atom_pairs {T P : Type} (a : Assignment T P) (posi1 posi2 : Int) : P :=
  a.arrays.atom_pairs (a.conf_space.index posi1 posi2)

/-- The accessor get_conf_energy. -/
def Assignment.get_conf_energy {T P : Type} (a : Assignment T P) (posi : Int) : T :=
  a.arrays.conf_energies posi

/-- The accessor get_static_index: static atoms are first in the array. -/
def Assignment.get_static_index {T P : Type} (_a : Assignment T P) (atomi : Int) : Int :=
  atomi

/-- The accessor get_index. -/
def Assignment.get_index {T P : Type} (a : Assignment T P) (posi atomi : Int) : Int :=
  a.arrays.index_offsets posi + atomi

/-! ## Cooperative construction (src/main/cu/CudaConfEcalc/assignment.h) -/

/-- The function sizeof_index_offsets; `size_int32` is `sizeof(int32_t)`. -/
def sizeof_index_offsets (size_int32 : Int) (num_pos : Int) : Int :=
  num_pos * size_int32

/-- The function sizeof_atom_pairs; `size_ptr` is `sizeof(void *)`. -/
def sizeof_atom_pairs (size_ptr : Int) (num_pos : Int) : Int :=
  (1 + 2 * num_pos + Int.tdiv (num_pos * (num_pos - 1)) 2) * size_ptr

/-- The function sizeof_conf_energies; `size_T` is `sizeof(T)`. -/
def sizeof_conf_energies (size_T : Int) (num_pos : Int) : Int :=
  num_pos * size_T

/-- Element stores of the slice of a bulk copy that the thread of rank
`threadIdx` performs in a block of `blockDim` threads: the elements whose
number is `threadIdx`, `threadIdx + blockDim`, ... -/
def copy_stores_device {T P : Type} (blockDim threadIdx : Nat) (dstOffset : Int) :
    List (Real3 T) → Nat → List (Store T P)
  | [], _ => []
  | v :: vs, k =>
    if k % blockDim = threadIdx then
      Store.atoms (dstOffset + k) v :: copy_stores_device blockDim threadIdx dstOffset vs (k + 1)
    else copy_stores_device blockDim threadIdx dstOffset vs (k + 1)

/-- Modelled from the spec: `Array::copy_from_device(src, dstOffset)` (class
`Array` is declared outside src): all threads of the block copy the source
block cooperatively, each thread a disjoint slice of it, and each thread gets
the number of elements of the block back. -/
def copy_from_device {T P : Type} (blockDim threadIdx : Nat) (src : List (Real3 T))
    (dstOffset : Int) : List (Store T P) × Int :=
  (copy_stores_device blockDim threadIdx dstOffset src 0, (src.length : Int))

/-- Modelled from the spec: `Array::fill_device(offset, count, value)` (class
`Array` is declared outside src): the threads of the block set the `count`
elements from `offset` on to `value`, each thread a disjoint slice; nothing is
stored when `count` is not positive. -/
def fill_device {T P : Type} (blockDim threadIdx : Nat) (offset count : Int) (value : Real3 T) :
    List (Store T P) :=
  ((List.range count.toNat).filter (fun (k : Nat) => k % blockDim = threadIdx)).map
    (fun (k : Nat) => Store.atoms (offset + (k : Int)) value)

/-- Lines 67-78 of the device constructor: the loop
`for (posi2 = start; posi2 < posi1; posi2 += blockDim.x)`; the first argument
bounds the number of iterations, and `posi1` iterations are enough when
`blockDim` is positive. -/
def device_pair_loop {T P : Type} (cs : ConfSpace T P) (conf : Nat → Int) (blockDim : Nat)
    (posi1 : Nat) (frag1 : Int) : Nat → Nat → List (Store T P)
  | 0, _ => []
  | fuel + 1, posi2 =>
    if posi2 < posi1 then
      (if conf posi2 ≥ 0 then
        [Store.atom_pairs (cs.index_pos_pos posi1 posi2)
          (cs.get_pos_pos_pairs posi1 frag1 posi2 (cs.get_conf posi2 (conf posi2)).frag_index)]
      else []) ++ device_pair_loop cs conf blockDim posi1 frag1 fuel (posi2 + blockDim)
    else []

/-- Lines 41-84 of the device constructor: one iteration of the position loop,
as executed by the thread of rank `threadIdx`. -/
def device_pos_body {T P : Type} [Zero T] (cs : ConfSpace T P) (conf : Nat → Int)
    (blockDim threadIdx : Nat) (posi1 : Nat) (st : Frame T P) : Frame T P :=
  let offset := st.offset
  let save := [Store.index_offsets (posi1 : Int) offset]
  let confi1 := conf posi1
  if confi1 ≥ 0 then
    let pconf1 := cs.get_conf posi1 confi1
    let copied : List (Store T P) × Int :=
      copy_from_device blockDim threadIdx pconf1.atom_coords offset
    let num_copied := copied.2
    let offset1 := offset + num_copied
    let terms :=
      if threadIdx = 0 then
        [Store.conf_energies (posi1 : Int) pconf1.internal_energy,
          Store.atom_pairs (cs.index_static_pos posi1)
            (cs.get_static_pos_pairs posi1 pconf1.frag_index),
          Store.atom_pairs (cs.index_pos posi1) (cs.get_pos_pairs posi1 pconf1.frag_index)]
      else []
    let pairs := device_pair_loop cs conf blockDim posi1 pconf1.frag_index posi1 threadIdx
    let atoms_remaining := (cs.max_num_atoms posi1 : Int) - num_copied
    { offset := offset1 + atoms_remaining
      stores := st.stores ++
        (save ++ copied.1 ++ terms ++ pairs ++ fill_device blockDim threadIdx offset1 atoms_remaining 0) }
  else
    let num_copied : Int := 0
    let atoms_remaining := (cs.max_num_atoms posi1 : Int) - num_copied
    { offset := offset + atoms_remaining
      stores := st.stores ++ (save ++ fill_device blockDim threadIdx offset atoms_remaining 0) }

/-- Lines 32-38 of the device constructor, as executed by the thread of rank
`threadIdx`. -/
def device_prologue {T P : Type} (cs : ConfSpace T P) (blockDim threadIdx : Nat) : Frame T P :=
  let offset : Int := 0
  let copied : List (Store T P) × Int :=
    copy_from_device blockDim threadIdx cs.static_atom_coords offset
  { offset := offset + copied.2
    stores := copied.1 ++
      (if threadIdx = 0 then [Store.atom_pairs cs.index_static_static cs.get_static_static_pair]
       else []) }

/-- The device constructor of one thread up to and including the iterations
`posi1 = 0 .. n-1` of the position loop. -/
def device_pos_loop {T P : Type} [Zero T] (cs : ConfSpace T P) (conf : Nat → Int)
    (blockDim threadIdx : Nat) : Nat → Frame T P
  | 0 => device_prologue cs blockDim threadIdx
  | n + 1 => device_pos_body cs conf blockDim threadIdx n (device_pos_loop cs conf blockDim threadIdx n)

/-- The stores of the thread of rank `threadIdx` from its entry into the device
constructor to the barrier, in program order. -/
def device_stores {T P : Type} [Zero T] (cs : ConfSpace T P) (conf : Nat → Int)
    (blockDim threadIdx : Nat) : List (Store T P) :=
  (device_pos_loop cs conf blockDim threadIdx cs.num_pos).stores

/-- One step of a block: the thread of rank `t` performs its next pending store;
there is no step when that thread has none left. -/
def block_step {T P : Type} (pending : List (List (Store T P))) (m : Arrays T P) (t : Nat) :
    Option (List (List (Store T P)) × Arrays T P) :=
  match pending.get? t with
  | some (w :: rest) => some (pending.set t rest, m.store w)
  | _ => none

/-- A block running under a schedule: the list names, step by step, the rank of
the thread that performs its next store. -/
def block_run {T P : Type} :
    List Nat → List (List (Store T P)) → Arrays T P → Option (List (List (Store T P)) × Arrays T P)
  | [], pending, m => some (pending, m)
  | t :: schedule, pending, m =>
    match block_step pending m t with
    | some (pending2, m2) => block_run schedule pending2 m2
    | none => none

/-- The threads of a block of `blockDim` threads, each with its stores up to the
barrier. -/
def device_threads {T P : Type} [Zero T] (cs : ConfSpace T P) (conf : Nat → Int)
    (blockDim : Nat) : List (List (Store T P)) :=
  (List.range blockDim).map (device_stores cs conf blockDim)

/-- The cooperative construction by a block of `blockDim` threads under a
schedule, from the contents `shared` of the caller-supplied arrays: the result
is the contents of the arrays at the barrier, when the schedule brings every
thread of the block to the barrier. -/
def cooperative_construct {T P : Type} [Zero T] (cs : ConfSpace T P) (conf : Nat → Int)
    (blockDim : Nat) (schedule : List Nat) (shared : Arrays T P) : Option (Arrays T P) :=
  match block_run schedule (device_threads cs conf blockDim) shared with
  | some (pending, m) => if pending.all List.isEmpty then some m else none
  | none => none

/-- The schedule in which the threads run one after the other, by rank; the
first argument is the rank of the first thread of the list. -/
def rank_order_schedule {T P : Type} : Nat → List (List (Store T P)) → List Nat
  | _, [] => []
  | t, thread :: threads => List.replicate thread.length t ++ rank_order_schedule (t + 1) threads

/-- The assignment vector is valid for the descriptor: at every assigned
position the selected conformation has at most the maximum atom count of the
position. -/
def valid_conf {T P : Type} (cs : ConfSpace T P) (conf : Nat → Int) : Prop :=
  ∀ p, p < cs.num_pos → conf p ≥ 0 →
    (cs.get_conf p (conf p)).atom_coords.length ≤ cs.max_num_atoms p

/-- The offset of the block of position `p` in the layout: the static atoms,
then the maximum atom counts of the positions before `p`. -/
def layout_offset {T P : Type} (cs : ConfSpace T P) : Nat → Nat
  | 0 => cs.static_atom_coords.length
  | p + 1 => layout_offset cs p + cs.max_num_atoms p

/-! ## Vector arithmetic (src/native/cu/CudaConfEcalc/cuda.h) -/

/-- The factory real3 from three values of the scalar type. -/
def real3 {T : Type} (x y z : T) : Real3 T := ⟨x, y, z⟩

/-- The function dot. -/
def dot {T : Type} [Add T] [Mul T] (a b : Real3 T) : T :=
  a.x * b.x + a.y * b.y + a.z * b.z

/-- The function distance_sq. -/
def distance_sq {T : Type} [Add T] [Mul T] [Sub T] (a b : Real3 T) : T :=
  let dx := a.x - b.x
  let dy := a.y - b.y
  let dz := a.z - b.z
  dx * dx + dy * dy + dz * dz

/-- The operator `+=`; the result is the new value of `self`. -/
def Real3.add_assign {T : Type} [Add T] (self other : Real3 T) : Real3 T :=
  ⟨self.x + other.x, self.y + other.y, self.z + other.z⟩

/-- The operator `-=`; the result is the new value of `self`. -/
def Real3.sub_assign {T : Type} [Sub T] (self other : Real3 T) : Real3 T :=
  ⟨self.x - other.x, self.y - other.y, self.z - other.z⟩

/-- The unary operator `-`. -/
def Real3.neg {T : Type} [Neg T] (v : Real3 T) : Real3 T :=
  ⟨-v.x, -v.y, -v.z⟩

/-- The binary operator `+`. -/
def Real3.add {T : Type} [Add T] (a b : Real3 T) : Real3 T :=
  ⟨a.x + b.x, a.y + b.y, a.z + b.z⟩

/-- The binary operator `-`. -/
def Real3.sub {T : Type} [Sub T] (a b : Real3 T) : Real3 T :=
  ⟨a.x - b.x, a.y - b.y, a.z - b.z⟩

instance {T : Type} [Neg T] : Neg (Real3 T) := ⟨Real3.neg⟩

instance {T : Type} [Add T] : Add (Real3 T) := ⟨Real3.add⟩

instance {T : Type} [Sub T] : Sub (Real3 T) := ⟨Real3.sub⟩

/-- The function cross. -/
def cross {T : Type} [Mul T] [Sub T] (a b : Real3 T) : Real3 T :=
  ⟨a.y * b.z - a.z * b.y, a.z * b.x - a.x * b.z, a.x * b.y - a.y * b.x⟩

/-- The function len_sq. -/
def len_sq {T : Type} [Add T] [Mul T] (v : Real3 T) : T :=
  v.x * v.x + v.y * v.y + v.z * v.z

/-- The function len; the square root `std::sqrt` of the scalar type is a
parameter. -/
def len {T : Type} [Add T] [Mul T] (sqrt : T → T) (v : Real3 T) : T :=
  sqrt (len_sq v)

/-- The function normalize; the result is the new value of `v`. -/
def normalize {T : Type} [Add T] [Mul T] [One T] [Div T] (sqrt : T → T) (v : Real3 T) : Real3 T :=
  let invlen := 1 / len sqrt v
  ⟨v.x * invlen, v.y * invlen, v.z * invlen⟩

/-! ## The loops over the earlier positions, by the positions they visit -/

/-- Lines 49-58 of the host constructor and 68-77 of the device constructor:
the body of the loop over the earlier positions, for one earlier position. -/
def pair_loop_body {T P : Type} (cs : ConfSpace T P) (conf : Nat → Int) (posi1 : Nat)
    (frag1 : Int) (posi2 : Nat) : List (Store T P) :=
  if conf posi2 ≥ 0 then
    [Store.atom_pairs (cs.index_pos_pos posi1 posi2)
      (cs.get_pos_pos_pairs posi1 frag1 posi2 (cs.get_conf posi2 (conf posi2)).frag_index)]
  else []

/-- The values of `posi2` for which the body of the host loop
`for (posi2 = 0; posi2 < bound; posi2++)` runs, in order. -/
def host_pair_visits : Nat → List Nat
  | 0 => []
  | posi2 + 1 => host_pair_visits posi2 ++ [posi2]

/-- The values of `posi2` for which the body of the device loop
`for (posi2 = start; posi2 < posi1; posi2 += blockDim.x)` runs, in order; the
first argument bounds the number of iterations. -/
def device_pair_visits (blockDim posi1 : Nat) : Nat → Nat → List Nat
  | 0, _ => []
  | fuel + 1, posi2 =>
    if posi2 < posi1 then posi2 :: device_pair_visits blockDim posi1 fuel (posi2 + blockDim)
    else []

/-- A vector of the reals with a length that is a whole number. -/
def example_vector : Real3 Real := ⟨3, 4, 0⟩

/-! ## Specification vocabulary -/

/-- The conformation the assignment vector selects at position `p`. -/
def selected {T P : Type} (cs : ConfSpace T P) (conf : Nat → Int) (p : Nat) : Conf T :=
  cs.get_conf p (conf p)

/-- The stores of iteration `p` of the host position loop, as a predicate. -/
def HostPosStore {T P : Type} [Zero T] (cs : ConfSpace T P) (conf : Nat → Int) (p : Nat)
    (w : Store T P) : Prop :=
  w = Store.index_offsets (p : Int) (layout_offset cs p) ∨
  (conf p ≥ 0 ∧
    ((∃ a v, (selected cs conf p).atom_coords.get? a = some v ∧
        w = Store.atoms ((layout_offset cs p : Int) + (a : Int)) v) ∨
      w = Store.conf_energies (p : Int) (selected cs conf p).internal_energy ∨
      w = Store.atom_pairs (cs.index_static_pos p)
        (cs.get_static_pos_pairs p (selected cs conf p).frag_index) ∨
      w = Store.atom_pairs (cs.index_pos p) (cs.get_pos_pairs p (selected cs conf p).frag_index) ∨
      (∃ q, q < p ∧ conf q ≥ 0 ∧
        w = Store.atom_pairs (cs.index_pos_pos p q)
          (cs.get_pos_pos_pairs p (selected cs conf p).frag_index q
            (selected cs conf q).frag_index)) ∨
      (∃ j : Nat, (selected cs conf p).atom_coords.length + j < cs.max_num_atoms p ∧
        w = Store.atoms ((layout_offset cs p : Int) + ((selected cs conf p).atom_coords.length : Int)
          + (j : Int)) 0))) ∨
  (¬ conf p ≥ 0 ∧ ∃ j : Nat, j < cs.max_num_atoms p ∧
    w = Store.atoms ((layout_offset cs p : Int) + (j : Int)) 0)

/-- The stores of the host constructor, as a predicate. -/
def HostStore {T P : Type} [Zero T] (cs : ConfSpace T P) (conf : Nat → Int) (w : Store T P) :
    Prop :=
  (∃ a v, cs.static_atom_coords.get? a = some v ∧ w = Store.atoms (a : Int) v) ∨
  w = Store.atom_pairs cs.index_static_static cs.get_static_static_pair ∨
  ∃ p, p < cs.num_pos ∧ HostPosStore cs conf p w

/-- The stores of iteration `p` of the device position loop of the thread of
rank `t` in a block of `B` threads, as a predicate. -/
def DevicePosStore {T P : Type} [Zero T] (cs : ConfSpace T P) (conf : Nat → Int) (B t : Nat)
    (p : Nat) (w : Store T P) : Prop :=
  w = Store.index_offsets (p : Int) (layout_offset cs p) ∨
  (conf p ≥ 0 ∧
    ((∃ a v, a % B = t ∧ (selected cs conf p).atom_coords.get? a = some v ∧
        w = Store.atoms ((layout_offset cs p : Int) + (a : Int)) v) ∨
      (t = 0 ∧ w = Store.conf_energies (p : Int) (selected cs conf p).internal_energy) ∨
      (t = 0 ∧ w = Store.atom_pairs (cs.index_static_pos p)
        (cs.get_static_pos_pairs p (selected cs conf p).frag_index)) ∨
      (t = 0 ∧ w = Store.atom_pairs (cs.index_pos p)
        (cs.get_pos_pairs p (selected cs conf p).frag_index)) ∨
      (∃ q, q < p ∧ q % B = t ∧ conf q ≥ 0 ∧
        w = Store.atom_pairs (cs.index_pos_pos p q)
          (cs.get_pos_pos_pairs p (selected cs conf p).frag_index q
            (selected cs conf q).frag_index)) ∨
      (∃ j : Nat, j % B = t ∧ (selected cs conf p).atom_coords.length + j < cs.max_num_atoms p ∧
        w = Store.atoms ((layout_offset cs p : Int) + ((selected cs conf p).atom_coords.length : Int)
          + (j : Int)) 0))) ∨
  (¬ conf p ≥ 0 ∧ ∃ j : Nat, j % B = t ∧ j < cs.max_num_atoms p ∧
    w = Store.atoms ((layout_offset cs p : Int) + (j : Int)) 0)

/-- The stores of the thread of rank `t` of a block of `B` threads in the device
constructor, as a predicate. -/
def DeviceStore {T P : Type} [Zero T] (cs : ConfSpace T P) (conf : Nat → Int) (B t : Nat)
    (w : Store T P) : Prop :=
  (∃ a v, a % B = t ∧ cs.static_atom_coords.get? a = some v ∧ w = Store.atoms (a : Int) v) ∨
  (t = 0 ∧ w = Store.atom_pairs cs.index_static_static cs.get_static_static_pair) ∨
  ∃ p, p < cs.num_pos ∧ DevicePosStore cs conf B t p w

/-- No two stores of the list target one location with different values. -/
def Functional {T P : Type} (ws : List (Store T P)) : Prop :=
  ∀ w ∈ ws, ∀ w2 ∈ ws, w.loc = w2.loc → w = w2

/-- The triangular numbers 0, 0, 1, 3, 6, ...: the number of pairs of distinct
positions below a given position. -/
def triangle : Nat → Nat
  | 0 => 0
  | n + 1 => triangle n + n

/-- The slots of the term table that a sequence of stores targets, in the order
of the stores. -/
def atom_pairs_written {T P : Type} (ws : List (Store T P)) : List Int :=
  ws.filterMap (fun w => match w with
    | Store.atom_pairs k _ => some k
    | _ => none)

/-- The energy terms of a conformation space, by kind: the static/static term,
the static/position and position-internal terms of a position, and the term of
a pair of positions. -/
inductive Term where
  | static_static
  | static_pos (posi1 : Nat)
  | pos (posi1 : Nat)
  | pos_pos (posi1 posi2 : Nat)
deriving DecidableEq

/-- The terms of a space of `num_pos` positions: the positions are below
`num_pos`, and a pair has its larger position first. -/
def Term.in_space (num_pos : Nat) : Term → Prop
  | .static_static => True
  | .static_pos posi1 => posi1 < num_pos
  | .pos posi1 => posi1 < num_pos
  | .pos_pos posi1 posi2 => posi2 < posi1 ∧ posi1 < num_pos

instance (num_pos : Nat) (t : Term) : Decidable (t.in_space num_pos) := by
  cases t <;> simp only [Term.in_space] <;> infer_instance

/-- The slot of a term in the term table. -/
def ConfSpace.slot {T P : Type} (cs : ConfSpace T P) : Term → Int
  | .static_static => cs.index_static_static
  | .static_pos posi1 => cs.index_static_pos posi1
  | .pos posi1 => cs.index_pos posi1
  | .pos_pos posi1 posi2 => cs.index_pos_pos posi1 posi2

/-! ## The end-to-end example of the specification -/

/-- A coordinate triple with a recognisable value. -/
def example_atom (n : Int) : Real3 Int := ⟨n, n + 1, n + 2⟩

/-- Three positions with maximum atom counts 2, 3 and 1, and two static atoms.
Every conformation of a position has one atom; the descriptors are numbered so
that each one is recognisable. -/
def example_space : ConfSpace Int Int where
  num_pos := 3
  max_num_conf_atoms := 8
  static_atom_coords := [example_atom 10, example_atom 20]
  max_num_atoms := fun p => [2, 3, 1].getD p 0
  get_conf := fun p confi =>
    { frag_index := 10 * (p : Int) + confi
      internal_energy := 100 * (p : Int) + confi
      atom_coords := [example_atom (1000 * (p : Int) + 100 * confi)] }
  get_static_static_pair := 7
  get_static_pos_pairs := fun posi fragi => 1000 + 100 * posi + fragi
  get_pos_pairs := fun posi fragi => 2000 + 100 * posi + fragi
  get_pos_pos_pairs := fun posi1 fragi1 posi2 fragi2 =>
    30000 + 1000 * posi1 + 100 * fragi1 + 10 * posi2 + fragi2

/-- The assignment vector of the example: position 1 is unassigned. -/
def example_conf : Nat → Int := fun p => [0, -1, 1].getD p (-1)

/-- Arrays whose every entry holds a marker value. -/
def example_fresh : Arrays Int Int where
  atoms := fun _ => ⟨-1, -1, -1⟩
  index_offsets := fun _ => -1
  atom_pairs := fun _ => -1
  conf_energies := fun _ => -1

/-- Arrays whose every entry holds another marker value. -/
def example_fresh2 : Arrays Int Int where
  atoms := fun _ => ⟨-2, -2, -2⟩
  index_offsets := fun _ => -2
  atom_pairs := fun _ => -2
  conf_energies := fun _ => -2

/-! ## Stores and their effect on the arrays -/

theorem run_nil {T P : Type} (m : Arrays T P) : m.run [] = m := rfl

theorem run_cons {T P : Type} (m : Arrays T P) (w : Store T P) (ws : List (Store T P)) :
    m.run (w :: ws) = (m.store w).run ws := rfl

theorem run_append {T P : Type} (m : Arrays T P) (ws ws2 : List (Store T P)) :
    m.run (ws ++ ws2) = (m.run ws).run ws2 := by
  simp [Arrays.run, List.foldl_append]

theorem same_at_refl {T P : Type} (m : Arrays T P) (l : Loc) : m.same_at m l := by
  cases l <;> rfl

theorem same_at_trans {T P : Type} {m1 m2 m3 : Arrays T P} {l : Loc} (h1 : m1.same_at m2 l)
    (h2 : m2.same_at m3 l) : m1.same_at m3 l := by
  cases l <;> exact Eq.trans h1 h2

theorem same_at_symm {T P : Type} {m1 m2 : Arrays T P} {l : Loc} (h1 : m1.same_at m2 l) :
    m2.same_at m1 l := by
  cases l <;> exact Eq.symm h1

theorem store_same_at {T P : Type} (m : Arrays T P) (w : Store T P) (l : Loc) (h : w.loc ≠ l) :
    (m.store w).same_at m l := by
  cases w <;> cases l <;> simp_all [Arrays.store, Arrays.same_at, Store.loc]
  all_goals (intro h2; exact absurd h2.symm h)

theorem store_holds {T P : Type} (m : Arrays T P) (w : Store T P) : (m.store w).holds w := by
  cases w <;> simp [Arrays.store, Arrays.holds]

theorem holds_of_same_at {T P : Type} {m m2 : Arrays T P} {w : Store T P} (h : m.holds w)
    (hs : m2.same_at m w.loc) : m2.holds w := by
  cases w <;> simp_all [Arrays.holds, Arrays.same_at, Store.loc]

theorem same_at_of_holds {T P : Type} {m m2 : Arrays T P} {w : Store T P} (h : m.holds w)
    (h2 : m2.holds w) : m.same_at m2 w.loc := by
  cases w <;> simp_all [Arrays.holds, Arrays.same_at, Store.loc]

theorem store_same_at_both {T P : Type} (m m2 : Arrays T P) (w : Store T P) (l : Loc)
    (h : m.same_at m2 l) : (m.store w).same_at (m2.store w) l := by
  by_cases hl : w.loc = l
  · subst hl
    exact same_at_of_holds (store_holds m w) (store_holds m2 w)
  · exact same_at_trans (store_same_at m w l hl) (same_at_trans h (same_at_symm (store_same_at m2 w l hl)))

theorem arrays_ext {T P : Type} {m m2 : Arrays T P} (h : ∀ l, m.same_at m2 l) : m = m2 := by
  cases m; cases m2
  simp only [Arrays.mk.injEq]
  refine ⟨funext fun i => h (.atoms i), funext fun i => h (.index_offsets i),
    funext fun i => h (.atom_pairs i), funext fun i => h (.conf_energies i)⟩

/-- Stores that do not target a location leave it as it was. -/
theorem run_frame {T P : Type} (ws : List (Store T P)) (m : Arrays T P) (l : Loc)
    (h : ∀ w ∈ ws, w.loc ≠ l) : (m.run ws).same_at m l := by
  induction ws generalizing m with
  | nil => exact same_at_refl m l
  | cons w ws ih =>
    rw [run_cons]
    exact same_at_trans (ih (m.store w) (fun w2 h2 => h w2 (List.mem_cons_of_mem _ h2)))
      (store_same_at m w l (h w (List.mem_cons_self _ _)))

/-- After a sequence of stores, a location targeted by stores of one value only
holds that value. -/
theorem run_holds {T P : Type} (ws : List (Store T P)) (m : Arrays T P) (w : Store T P) (hw : w ∈ ws)
    (h : ∀ w2 ∈ ws, w2.loc = w.loc → w2 = w) : (m.run ws).holds w := by
  induction ws generalizing m with
  | nil => cases hw
  | cons w0 ws ih =>
    rw [run_cons]
    by_cases hex : ∃ w2 ∈ ws, w2.loc = w.loc
    · obtain ⟨w2, hm, hl⟩ := hex
      have : w2 = w := h w2 (List.mem_cons_of_mem _ hm) hl
      subst this
      exact ih (m.store w0) hm (fun w3 h3 hl3 => h w3 (List.mem_cons_of_mem _ h3) hl3)
    · have hw0 : w0 = w := by
        rcases List.mem_cons.1 hw with h1 | h1
        · exact h1.symm
        · exact absurd ⟨w, h1, rfl⟩ hex
      subst hw0
      refine holds_of_same_at (store_holds m w0) (run_frame ws _ _ ?_)
      intro w2 h2 hl
      exact hex ⟨w2, h2, hl⟩

/-- The value a location holds after a sequence of stores that targets it does
not depend on what the arrays held before. -/
theorem run_same_at_of_written {T P : Type} (ws : List (Store T P)) (m m2 : Arrays T P) (l : Loc)
    (h : ∃ w ∈ ws, w.loc = l) : (m.run ws).same_at (m2.run ws) l := by
  induction ws generalizing m m2 with
  | nil => obtain ⟨w, hw, _⟩ := h; cases hw
  | cons w0 ws ih =>
    rw [run_cons, run_cons]
    by_cases hex : ∃ w2 ∈ ws, w2.loc = l
    · exact ih _ _ hex
    · have hw0 : w0.loc = l := by
        obtain ⟨w, hw, hl⟩ := h
        rcases List.mem_cons.1 hw with h1 | h1
        · rw [← h1]; exact hl
        · exact absurd ⟨w, h1, hl⟩ hex
      have hfr : ∀ w2 ∈ ws, w2.loc ≠ l := fun w2 h2 hl => hex ⟨w2, h2, hl⟩
      refine same_at_trans (run_frame ws _ l hfr) (same_at_trans ?_ (same_at_symm (run_frame ws _ l hfr)))
      subst hw0
      exact same_at_of_holds (store_holds m w0) (store_holds m2 w0)

/-- Two sequences of the same stores, no two of which target one location with
different values, have the same effect. -/
theorem run_eq_of_same_stores {T P : Type} (ws ws2 : List (Store T P)) (m : Arrays T P)
    (hf : Functional ws) (hs : ∀ w, w ∈ ws2 ↔ w ∈ ws) : m.run ws2 = m.run ws := by
  apply arrays_ext
  intro l
  by_cases hex : ∃ w ∈ ws, w.loc = l
  · obtain ⟨w, hw, hl⟩ := hex
    subst hl
    have h1 : (m.run ws).holds w := run_holds ws m w hw (fun w2 h2 hl2 => hf w2 h2 w hw hl2)
    have h2 : (m.run ws2).holds w :=
      run_holds ws2 m w ((hs w).2 hw) (fun w2 h2 hl2 => hf w2 ((hs w2).1 h2) w hw hl2)
    exact same_at_of_holds h2 h1
  · have hfr : ∀ w ∈ ws, w.loc ≠ l := fun w hw hl => hex ⟨w, hw, hl⟩
    have hfr2 : ∀ w ∈ ws2, w.loc ≠ l := fun w hw hl => hex ⟨w, (hs w).1 hw, hl⟩
    exact same_at_trans (run_frame ws2 m l hfr2) (same_at_symm (run_frame ws m l hfr))

/-! ## The stores of the copies, the fills and the pair loops -/

theorem mem_copy_stores {T P : Type} (dst : Int) (src : List (Real3 T)) (k : Nat) (w : Store T P) :
    w ∈ copy_stores dst src k ↔
      ∃ a v, src.get? a = some v ∧ w = Store.atoms (dst + ((k + a : Nat) : Int)) v := by
  induction src generalizing k with
  | nil => simp [copy_stores]
  | cons v vs ih =>
    simp only [copy_stores, List.mem_cons, ih]
    constructor
    · rintro (h | ⟨a, v2, h1, h2⟩)
      · exact ⟨0, v, by simp, by simpa using h⟩
      · exact ⟨a + 1, v2, by simpa using h1, by rw [h2]; congr 2; omega⟩
    · rintro ⟨a, v2, h1, h2⟩
      cases a with
      | zero =>
        left
        simp at h1
        subst h1
        simpa using h2
      | succ a =>
        right
        exact ⟨a, v2, by simpa using h1, by rw [h2]; congr 2; omega⟩

theorem mem_copy_from {T P : Type} (src : List (Real3 T)) (dst : Int) (w : Store T P) :
    w ∈ (copy_from src dst).1 ↔
      ∃ a v, src.get? a = some v ∧ w = Store.atoms (dst + (a : Int)) v := by
  simp [copy_from, mem_copy_stores]

theorem mem_copy_stores_device {T P : Type} (B t : Nat) (dst : Int) (src : List (Real3 T)) (k : Nat)
    (w : Store T P) :
    w ∈ copy_stores_device B t dst src k ↔
      ∃ a v, (k + a) % B = t ∧ src.get? a = some v ∧
        w = Store.atoms (dst + ((k + a : Nat) : Int)) v := by
  induction src generalizing k with
  | nil => simp [copy_stores_device]
  | cons v vs ih =>
    have key : (w ∈ copy_stores_device B t dst (v :: vs) k) ↔
        ((k % B = t ∧ w = Store.atoms (dst + (k : Int)) v) ∨
          w ∈ copy_stores_device B t dst vs (k + 1)) := by
      simp only [copy_stores_device]
      split
      · rename_i h; simp [h]
      · rename_i h; simp [h]
    rw [key, ih]
    constructor
    · rintro (⟨h0, h⟩ | ⟨a, v2, h0, h1, h2⟩)
      · exact ⟨0, v, by simpa using h0, by simp, by simpa using h⟩
      · exact ⟨a + 1, v2, by rw [← h0]; congr 1; omega, by simpa using h1,
          by rw [h2]; congr 2; omega⟩
    · rintro ⟨a, v2, h0, h1, h2⟩
      cases a with
      | zero =>
        left
        simp at h1
        subst h1
        exact ⟨by simpa using h0, by simpa using h2⟩
      | succ a =>
        right
        exact ⟨a, v2, by rw [← h0]; congr 1; omega, by simpa using h1,
          by rw [h2]; congr 2; omega⟩

theorem mem_copy_from_device {T P : Type} (B t : Nat) (src : List (Real3 T)) (dst : Int) (w : Store T P) :
    w ∈ (copy_from_device B t src dst).1 ↔
      ∃ a v, a % B = t ∧ src.get? a = some v ∧ w = Store.atoms (dst + (a : Int)) v := by
  simp [copy_from_device, mem_copy_stores_device]

theorem mem_zero_rest {T P : Type} [Zero T] (offset n : Int) (w : Store T P) :
    w ∈ (zero_rest offset n : List (Store T P)) ↔
      ∃ j : Nat, (j : Int) < n ∧ w = Store.atoms (offset + (j : Int)) 0 := by
  unfold zero_rest memset_zero
  split
  · rename_i h
    simp only [List.mem_map, List.mem_range]
    constructor
    · rintro ⟨j, hj, rfl⟩
      exact ⟨j, by omega, rfl⟩
    · rintro ⟨j, hj, rfl⟩
      exact ⟨j, by omega, rfl⟩
  · rename_i h
    simp only [List.not_mem_nil, false_iff, not_exists, not_and]
    intro j hj
    omega

theorem mem_fill_device {T P : Type} [Zero T] (B t : Nat) (offset n : Int) (w : Store T P) :
    w ∈ (fill_device B t offset n 0 : List (Store T P)) ↔
      ∃ j : Nat, j % B = t ∧ (j : Int) < n ∧ w = Store.atoms (offset + (j : Int)) 0 := by
  unfold fill_device
  simp only [List.mem_map, List.mem_filter, List.mem_range, decide_eq_true_eq]
  constructor
  · rintro ⟨j, ⟨hj, hm⟩, rfl⟩
    exact ⟨j, hm, by omega, rfl⟩
  · rintro ⟨j, hm, hj, rfl⟩
    exact ⟨j, ⟨by omega, hm⟩, rfl⟩

theorem mem_host_pair_loop {T P : Type} (cs : ConfSpace T P) (conf : Nat → Int) (posi1 : Nat) (frag1 : Int)
    (n : Nat) (w : Store T P) :
    w ∈ host_pair_loop cs conf posi1 frag1 n ↔
      ∃ q, q < n ∧ conf q ≥ 0 ∧
        w = Store.atom_pairs (cs.index_pos_pos posi1 q)
          (cs.get_pos_pos_pairs posi1 frag1 q (selected cs conf q).frag_index) := by
  induction n with
  | zero => simp [host_pair_loop]
  | succ n ih =>
    simp only [host_pair_loop, List.mem_append, ih]
    constructor
    · rintro (⟨q, hq, hc, rfl⟩ | h)
      · exact ⟨q, by omega, hc, rfl⟩
      · split at h
        · rename_i hc
          exact ⟨n, by omega, hc, by simpa [selected] using h⟩
        · cases h
    · rintro ⟨q, hq, hc, rfl⟩
      by_cases hqn : q = n
      · subst hqn
        right
        simp [hc, selected]
      · left
        exact ⟨q, by omega, hc, rfl⟩

/-- The strided loop of the device constructor stops by itself: iterations
beyond the distance to the bound change nothing. -/
theorem device_pair_loop_fuel {T P : Type} (cs : ConfSpace T P) (conf : Nat → Int) (B : Nat) (hB : 0 < B)
    (posi1 : Nat) (frag1 : Int) (fuel extra posi2 : Nat) (h : posi1 ≤ posi2 + fuel) :
    device_pair_loop cs conf B posi1 frag1 (fuel + extra) posi2 =
      device_pair_loop cs conf B posi1 frag1 fuel posi2 := by
  induction fuel generalizing posi2 with
  | zero =>
    cases extra with
    | zero => rfl
    | succ e =>
      have : ¬ posi2 < posi1 := by omega
      simp [device_pair_loop, this]
  | succ f ih =>
    have e : f + 1 + extra = (f + extra) + 1 := by omega
    rw [e]
    simp only [device_pair_loop]
    split
    · rw [ih (posi2 + B) (by omega)]
    · rfl

theorem mem_device_pair_loop {T P : Type} (cs : ConfSpace T P) (conf : Nat → Int) (B : Nat) (hB : 0 < B)
    (posi1 : Nat) (frag1 : Int) (fuel posi2 : Nat) (h : posi1 ≤ posi2 + fuel) (w : Store T P) :
    w ∈ device_pair_loop cs conf B posi1 frag1 fuel posi2 ↔
      ∃ q, q < posi1 ∧ posi2 ≤ q ∧ q % B = posi2 % B ∧ conf q ≥ 0 ∧
        w = Store.atom_pairs (cs.index_pos_pos posi1 q)
          (cs.get_pos_pos_pairs posi1 frag1 q (selected cs conf q).frag_index) := by
  induction fuel generalizing posi2 with
  | zero =>
    simp only [device_pair_loop, List.not_mem_nil, false_iff, not_exists, not_and]
    intro q h1 h2
    omega
  | succ f ih =>
    simp only [device_pair_loop]
    split
    · rename_i hlt
      rw [List.mem_append, ih (posi2 + B) (by omega)]
      constructor
      · rintro (h1 | ⟨q, h1, h2, h3, h4, rfl⟩)
        · split at h1
          · rename_i hc
            exact ⟨posi2, hlt, le_refl _, rfl, hc, by simpa [selected] using h1⟩
          · cases h1
        · exact ⟨q, h1, by omega, by rw [h3]; simp, h4, rfl⟩
      · rintro ⟨q, h1, h2, h3, h4, rfl⟩
        by_cases hq : q = posi2
        · subst hq
          left
          simp [h4, selected]
        · right
          refine ⟨q, h1, ?_, ?_, h4, rfl⟩
          · by_contra hcon
            have hlt2 : q < posi2 + B := by omega
            have h5 : (q - posi2) % B = 0 := (Nat.sub_mod_eq_zero_of_mod_eq h3)
            have h6 : q - posi2 < B := by omega
            rw [Nat.mod_eq_of_lt h6] at h5
            omega
          · rw [h3]; simp
    · rename_i hge
      simp only [List.not_mem_nil, false_iff, not_exists, not_and]
      intro q h1 h2
      omega

/-! ## The offset and the stores of the position loops -/

theorem host_pos_body_offset {T P : Type} [Zero T] (cs : ConfSpace T P) (conf : Nat → Int) (p : Nat)
    (st : Frame T P) :
    (host_pos_body cs conf p st).offset = st.offset + (cs.max_num_atoms p : Int) := by
  unfold host_pos_body
  by_cases h : conf p ≥ 0
  · simp only [h, if_true, copy_from]; ring
  · simp only [h, if_false]; ring

theorem host_pos_loop_offset {T P : Type} [Zero T] (cs : ConfSpace T P) (conf : Nat → Int) (n : Nat) :
    (host_pos_loop cs conf n).offset = (layout_offset cs n : Int) := by
  induction n with
  | zero => simp [host_pos_loop, host_prologue, copy_from, layout_offset]
  | succ n ih =>
    simp only [host_pos_loop, host_pos_body_offset, ih, layout_offset]
    push_cast
    rfl

theorem device_pos_body_offset {T P : Type} [Zero T] (cs : ConfSpace T P) (conf : Nat → Int) (B t p : Nat)
    (st : Frame T P) :
    (device_pos_body cs conf B t p st).offset = st.offset + (cs.max_num_atoms p : Int) := by
  unfold device_pos_body
  by_cases h : conf p ≥ 0
  · simp only [h, if_true, copy_from_device]; ring
  · simp only [h, if_false]; ring

theorem device_pos_loop_offset {T P : Type} [Zero T] (cs : ConfSpace T P) (conf : Nat → Int) (B t n : Nat) :
    (device_pos_loop cs conf B t n).offset = (layout_offset cs n : Int) := by
  induction n with
  | zero => simp [device_pos_loop, device_prologue, copy_from_device, layout_offset]
  | succ n ih =>
    simp only [device_pos_loop, device_pos_body_offset, ih, layout_offset]
    push_cast
    rfl

theorem layout_offset_mono {T P : Type} (cs : ConfSpace T P) {p q : Nat} (h : p ≤ q) :
    layout_offset cs p ≤ layout_offset cs q := by
  induction q with
  | zero =>
    have : p = 0 := by omega
    subst this; exact le_refl _
  | succ q ih =>
    by_cases hp : p = q + 1
    · subst hp; exact le_refl _
    · have := ih (by omega)
      simp only [layout_offset]
      omega

theorem layout_offset_static_le {T P : Type} (cs : ConfSpace T P) (p : Nat) :
    cs.static_atom_coords.length ≤ layout_offset cs p :=
  layout_offset_mono cs (Nat.zero_le p)

/-- The stores of one iteration of the host position loop come after the stores
made before it. -/
theorem host_pos_body_stores {T P : Type} [Zero T] (cs : ConfSpace T P) (conf : Nat → Int) (p : Nat)
    (st : Frame T P) :
    (host_pos_body cs conf p st).stores =
      st.stores ++ (host_pos_body cs conf p ⟨st.offset, []⟩).stores := by
  unfold host_pos_body
  by_cases h : conf p ≥ 0
  · simp only [h, if_true, List.nil_append]
  · simp only [h, if_false, List.nil_append]

theorem mem_host_pos_body {T P : Type} [Zero T] (cs : ConfSpace T P) (conf : Nat → Int) (p : Nat)
    (st : Frame T P) (hoff : st.offset = (layout_offset cs p : Int)) (w : Store T P) :
    w ∈ (host_pos_body cs conf p st).stores ↔ w ∈ st.stores ∨ HostPosStore cs conf p w := by
  unfold host_pos_body HostPosStore
  have e : ((copy_from (selected cs conf p).atom_coords (layout_offset cs p : Int)
      : List (Store T P) × Int)).2 = ((selected cs conf p).atom_coords.length : Int) := rfl
  have hj : ∀ j : Nat, ((j : Int) < (cs.max_num_atoms p : Int) -
      ((selected cs conf p).atom_coords.length : Int)) ↔
      (selected cs conf p).atom_coords.length + j < cs.max_num_atoms p := by
    intro j; omega
  have hj0 : ∀ j : Nat, ((j : Int) < (cs.max_num_atoms p : Int) - 0) ↔
      j < cs.max_num_atoms p := by
    intro j; omega
  by_cases h : conf p ≥ 0
  · simp only [h, if_true, List.mem_append, List.mem_singleton, mem_copy_from, mem_zero_rest,
      mem_host_pair_loop, List.mem_cons, List.not_mem_nil, or_false, hoff, true_and, not_true,
      false_and]
    simp only [selected] at e hj ⊢
    simp only [e, hj, or_assoc]
  · simp only [h, if_false, List.mem_append, List.mem_singleton, mem_zero_rest, hoff,
      false_and, not_false_eq_true, true_and, false_or, hj0]

theorem mem_device_pos_body {T P : Type} [Zero T] (cs : ConfSpace T P) (conf : Nat → Int) (B t : Nat)
    (hB : 0 < B) (ht : t < B) (p : Nat)
    (st : Frame T P) (hoff : st.offset = (layout_offset cs p : Int)) (w : Store T P) :
    w ∈ (device_pos_body cs conf B t p st).stores ↔
      w ∈ st.stores ∨ DevicePosStore cs conf B t p w := by
  unfold device_pos_body DevicePosStore
  have e : ((copy_from_device B t (selected cs conf p).atom_coords (layout_offset cs p : Int)
      : List (Store T P) × Int)).2 = ((selected cs conf p).atom_coords.length : Int) := rfl
  have hj : ∀ j : Nat, ((j : Int) < (cs.max_num_atoms p : Int) -
      ((selected cs conf p).atom_coords.length : Int)) ↔
      (selected cs conf p).atom_coords.length + j < cs.max_num_atoms p := by
    intro j; omega
  have hj0 : ∀ j : Nat, ((j : Int) < (cs.max_num_atoms p : Int) - 0) ↔
      j < cs.max_num_atoms p := by
    intro j; omega
  have hq : ∀ q : Nat, (t ≤ q ∧ q % B = t % B) ↔ q % B = t := by
    intro q
    rw [Nat.mod_eq_of_lt ht]
    constructor
    · exact fun h => h.2
    · intro h
      refine ⟨?_, h⟩
      rw [← h]
      exact Nat.mod_le q B
  have hpl := fun (f : Int) (w : Store T P) =>
    mem_device_pair_loop cs conf B hB p f p t (by omega) w
  by_cases h : conf p ≥ 0
  · simp only [h, if_true, List.mem_append, List.mem_singleton, mem_copy_from_device,
      mem_fill_device, hpl, List.mem_cons, List.not_mem_nil, or_false, hoff, true_and, not_true,
      false_and]
    simp only [selected] at e hj ⊢
    simp only [e, hj]
    have hq2 : ∀ (q : Nat) (X : Prop), (q < p ∧ t ≤ q ∧ q % B = t % B ∧ X) ↔
        (q < p ∧ q % B = t ∧ X) := by
      intro q X
      have := hq q
      tauto
    simp only [hq2]
    by_cases h0 : t = 0
    · simp only [h0, if_true, List.mem_cons, List.not_mem_nil, or_false, true_and, or_assoc]
    · simp only [h0, if_false, List.not_mem_nil, false_and, or_false, false_or, or_assoc]
  · simp only [h, if_false, List.mem_append, List.mem_singleton, mem_fill_device, hoff,
      false_and, not_false_eq_true, true_and, false_or, hj0]

theorem mem_host_pos_loop {T P : Type} [Zero T] (cs : ConfSpace T P) (conf : Nat → Int) (n : Nat)
    (w : Store T P) :
    w ∈ (host_pos_loop cs conf n).stores ↔
      (∃ a v, cs.static_atom_coords.get? a = some v ∧ w = Store.atoms (a : Int) v) ∨
      w = Store.atom_pairs cs.index_static_static cs.get_static_static_pair ∨
      ∃ p, p < n ∧ HostPosStore cs conf p w := by
  induction n with
  | zero =>
    simp [host_pos_loop, host_prologue, mem_copy_from]
  | succ n ih =>
    simp only [host_pos_loop]
    rw [mem_host_pos_body cs conf n _ (host_pos_loop_offset cs conf n), ih]
    constructor
    · rintro ((h | h | ⟨p, hp, h⟩) | h)
      · exact Or.inl h
      · exact Or.inr (Or.inl h)
      · exact Or.inr (Or.inr ⟨p, by omega, h⟩)
      · exact Or.inr (Or.inr ⟨n, by omega, h⟩)
    · rintro (h | h | ⟨p, hp, h⟩)
      · exact Or.inl (Or.inl h)
      · exact Or.inl (Or.inr (Or.inl h))
      · by_cases hpn : p = n
        · subst hpn; exact Or.inr h
        · exact Or.inl (Or.inr (Or.inr ⟨p, by omega, h⟩))

theorem mem_host_stores {T P : Type} [Zero T] (cs : ConfSpace T P) (conf : Nat → Int) (w : Store T P) :
    w ∈ host_stores cs conf ↔ HostStore cs conf w :=
  mem_host_pos_loop cs conf cs.num_pos w

theorem mem_device_pos_loop {T P : Type} [Zero T] (cs : ConfSpace T P) (conf : Nat → Int) (B t : Nat)
    (hB : 0 < B) (ht : t < B) (n : Nat) (w : Store T P) :
    w ∈ (device_pos_loop cs conf B t n).stores ↔
      (∃ a v, a % B = t ∧ cs.static_atom_coords.get? a = some v ∧ w = Store.atoms (a : Int) v) ∨
      (t = 0 ∧ w = Store.atom_pairs cs.index_static_static cs.get_static_static_pair) ∨
      ∃ p, p < n ∧ DevicePosStore cs conf B t p w := by
  induction n with
  | zero =>
    by_cases h0 : t = 0 <;> simp [device_pos_loop, device_prologue, mem_copy_from_device, h0]
  | succ n ih =>
    simp only [device_pos_loop]
    rw [mem_device_pos_body cs conf B t hB ht n _ (device_pos_loop_offset cs conf B t n), ih]
    constructor
    · rintro ((h | h | ⟨p, hp, h⟩) | h)
      · exact Or.inl h
      · exact Or.inr (Or.inl h)
      · exact Or.inr (Or.inr ⟨p, by omega, h⟩)
      · exact Or.inr (Or.inr ⟨n, by omega, h⟩)
    · rintro (h | h | ⟨p, hp, h⟩)
      · exact Or.inl (Or.inl h)
      · exact Or.inl (Or.inr (Or.inl h))
      · by_cases hpn : p = n
        · subst hpn; exact Or.inr h
        · exact Or.inl (Or.inr (Or.inr ⟨p, by omega, h⟩))

theorem mem_device_stores {T P : Type} [Zero T] (cs : ConfSpace T P) (conf : Nat → Int) (B t : Nat)
    (hB : 0 < B) (ht : t < B) (w : Store T P) :
    w ∈ device_stores cs conf B t ↔ DeviceStore cs conf B t w :=
  mem_device_pos_loop cs conf B t hB ht cs.num_pos w

/-! ## Arithmetic of the slot layout -/

theorem triangle_eq (n : Nat) : 2 * triangle n = n * (n - 1) := by
  induction n with
  | zero => rfl
  | succ n ih =>
    simp only [triangle, Nat.add_sub_cancel]
    cases n with
    | zero => rfl
    | succ k =>
      simp only [Nat.add_sub_cancel] at ih
      rw [Nat.mul_add, ih]
      ring

theorem tdiv_triangle (n : Nat) : Int.tdiv ((n : Int) * ((n : Int) - 1)) 2 = (triangle n : Int) := by
  have h := triangle_eq n
  have h2 : (n : Int) * ((n : Int) - 1) = 2 * (triangle n : Int) := by
    cases n with
    | zero => simp [triangle]
    | succ k =>
      simp only [Nat.add_sub_cancel] at h
      push_cast
      have : ((2 * triangle (k + 1) : Nat) : Int) = (((k + 1) * k : Nat) : Int) := by rw [h]
      push_cast at this
      linarith
  rw [h2]
  rw [Int.tdiv_eq_ediv (by positivity) (by norm_num)]
  simp

theorem triangle_mono {p q : Nat} (h : p ≤ q) : triangle p ≤ triangle q := by
  induction q with
  | zero =>
    have : p = 0 := by omega
    subst this; exact le_refl _
  | succ q ih =>
    by_cases hp : p = q + 1
    · subst hp; exact le_refl _
    · have := ih (by omega)
      simp only [triangle]
      omega

theorem triangle_lt {p q : Nat} (h : q < p) : triangle q + q ≤ triangle p := by
  have := triangle_mono (Nat.succ_le_of_lt h)
  simpa [triangle] using this

theorem index_pos_pos_eq {T P : Type} (cs : ConfSpace T P) (p q : Nat) :
    cs.index_pos_pos p q = ((1 + 2 * cs.num_pos + triangle p + q : Nat) : Int) := by
  unfold ConfSpace.index_pos_pos
  rw [tdiv_triangle]
  push_cast
  rfl

theorem index_pos_eq {T P : Type} (cs : ConfSpace T P) (p : Nat) :
    cs.index_pos p = ((1 + cs.num_pos + p : Nat) : Int) := by
  unfold ConfSpace.index_pos
  push_cast
  rfl

theorem index_static_pos_eq {T P : Type} (cs : ConfSpace T P) (p : Nat) :
    cs.index_static_pos p = ((1 + p : Nat) : Int) := by
  unfold ConfSpace.index_static_pos
  push_cast
  rfl

theorem index_static_static_eq {T P : Type} (cs : ConfSpace T P) :
    cs.index_static_static = ((0 : Nat) : Int) := rfl

theorem index_pos_pos_inj {T P : Type} (cs : ConfSpace T P) {p q p2 q2 : Nat} (hq : q < p) (hq2 : q2 < p2)
    (h : cs.index_pos_pos p q = cs.index_pos_pos p2 q2) : p = p2 ∧ q = q2 := by
  rw [index_pos_pos_eq, index_pos_pos_eq] at h
  have h2 : triangle p + q = triangle p2 + q2 := by omega
  rcases Nat.lt_trichotomy p p2 with hlt | heq | hgt
  · have := triangle_lt hlt
    omega
  · subst heq
    exact ⟨rfl, by omega⟩
  · have := triangle_lt hgt
    omega

/-! ## The stores of the host constructor, by array -/

theorem host_pos_store_atoms_iff {T P : Type} [Zero T] (cs : ConfSpace T P) (conf : Nat → Int) (p : Nat)
    (i : Int) (v : Real3 T) :
    HostPosStore cs conf p (Store.atoms i v) ↔
      (conf p ≥ 0 ∧
        ((∃ a, (selected cs conf p).atom_coords.get? a = some v ∧
            i = (layout_offset cs p : Int) + (a : Int)) ∨
          (∃ j : Nat, (selected cs conf p).atom_coords.length + j < cs.max_num_atoms p ∧
            i = (layout_offset cs p : Int) + ((selected cs conf p).atom_coords.length : Int)
              + (j : Int) ∧ v = 0))) ∨
      (¬ conf p ≥ 0 ∧ ∃ j : Nat, j < cs.max_num_atoms p ∧
        i = (layout_offset cs p : Int) + (j : Int) ∧ v = 0) := by
  simp only [HostPosStore, Store.atoms.injEq, reduceCtorEq, false_or, or_false, and_false,
    exists_false, exists_const]
  constructor
  · rintro (⟨hc, (⟨a, v2, h1, h2, h3⟩ | ⟨j, h1, h2, h3⟩)⟩ | ⟨hc, j, h1, h2, h3⟩)
    · subst h3; exact Or.inl ⟨hc, Or.inl ⟨a, h1, h2⟩⟩
    · exact Or.inl ⟨hc, Or.inr ⟨j, h1, h2, h3⟩⟩
    · exact Or.inr ⟨hc, j, h1, h2, h3⟩
  · rintro (⟨hc, (⟨a, h1, h2⟩ | ⟨j, h1, h2, h3⟩)⟩ | ⟨hc, j, h1, h2, h3⟩)
    · exact Or.inl ⟨hc, Or.inl ⟨a, v, h1, h2, rfl⟩⟩
    · exact Or.inl ⟨hc, Or.inr ⟨j, h1, h2, h3⟩⟩
    · exact Or.inr ⟨hc, j, h1, h2, h3⟩

theorem host_pos_store_index_offsets_iff {T P : Type} [Zero T] (cs : ConfSpace T P) (conf : Nat → Int)
    (p : Nat) (i v : Int) :
    HostPosStore cs conf p (Store.index_offsets i v) ↔
      i = (p : Int) ∧ v = (layout_offset cs p : Int) := by
  simp [HostPosStore]

theorem host_pos_store_conf_energies_iff {T P : Type} [Zero T] (cs : ConfSpace T P) (conf : Nat → Int)
    (p : Nat) (i : Int) (v : T) :
    HostPosStore cs conf p (Store.conf_energies i v) ↔
      conf p ≥ 0 ∧ i = (p : Int) ∧ v = (selected cs conf p).internal_energy := by
  simp [HostPosStore]

theorem host_pos_store_atom_pairs_iff {T P : Type} [Zero T] (cs : ConfSpace T P) (conf : Nat → Int)
    (p : Nat) (i : Int) (v : P) :
    HostPosStore cs conf p (Store.atom_pairs i v) ↔
      conf p ≥ 0 ∧
        ((i = cs.index_static_pos p ∧
            v = cs.get_static_pos_pairs p (selected cs conf p).frag_index) ∨
          (i = cs.index_pos p ∧ v = cs.get_pos_pairs p (selected cs conf p).frag_index) ∨
          (∃ q, q < p ∧ conf q ≥ 0 ∧ i = cs.index_pos_pos p q ∧
            v = cs.get_pos_pos_pairs p (selected cs conf p).frag_index q
              (selected cs conf q).frag_index)) := by
  simp [HostPosStore]

theorem host_store_atoms_iff {T P : Type} [Zero T] (cs : ConfSpace T P) (conf : Nat → Int)
    (i : Int) (v : Real3 T) :
    HostStore cs conf (Store.atoms i v) ↔
      (∃ a, cs.static_atom_coords.get? a = some v ∧ i = (a : Int)) ∨
      ∃ p, p < cs.num_pos ∧ HostPosStore cs conf p (Store.atoms i v) := by
  simp only [HostStore, Store.atoms.injEq, reduceCtorEq, false_or]
  constructor
  · rintro (⟨a, v2, h1, h2, h3⟩ | h)
    · subst h3; exact Or.inl ⟨a, h1, h2⟩
    · exact Or.inr h
  · rintro (⟨a, h1, h2⟩ | h)
    · exact Or.inl ⟨a, v, h1, h2, rfl⟩
    · exact Or.inr h

theorem host_store_index_offsets_iff {T P : Type} [Zero T] (cs : ConfSpace T P) (conf : Nat → Int)
    (i v : Int) :
    HostStore cs conf (Store.index_offsets i v) ↔
      ∃ p, p < cs.num_pos ∧ i = (p : Int) ∧ v = (layout_offset cs p : Int) := by
  simp [HostStore, host_pos_store_index_offsets_iff]

theorem host_store_conf_energies_iff {T P : Type} [Zero T] (cs : ConfSpace T P) (conf : Nat → Int)
    (i : Int) (v : T) :
    HostStore cs conf (Store.conf_energies i v) ↔
      ∃ p, p < cs.num_pos ∧ conf p ≥ 0 ∧ i = (p : Int) ∧
        v = (selected cs conf p).internal_energy := by
  simp [HostStore, host_pos_store_conf_energies_iff]

theorem host_store_atom_pairs_iff {T P : Type} [Zero T] (cs : ConfSpace T P) (conf : Nat → Int)
    (i : Int) (v : P) :
    HostStore cs conf (Store.atom_pairs i v) ↔
      (i = cs.index_static_static ∧ v = cs.get_static_static_pair) ∨
      ∃ p, p < cs.num_pos ∧ conf p ≥ 0 ∧
        ((i = cs.index_static_pos p ∧
            v = cs.get_static_pos_pairs p (selected cs conf p).frag_index) ∨
          (i = cs.index_pos p ∧ v = cs.get_pos_pairs p (selected cs conf p).frag_index) ∨
          (∃ q, q < p ∧ conf q ≥ 0 ∧ i = cs.index_pos_pos p q ∧
            v = cs.get_pos_pos_pairs p (selected cs conf p).frag_index q
              (selected cs conf q).frag_index)) := by
  simp [HostStore, host_pos_store_atom_pairs_iff]

/-- The descriptor a slot of the term table is given by the host constructor
is determined by the slot. -/
theorem host_store_atom_pairs_unique {T P : Type} [Zero T] (cs : ConfSpace T P) (conf : Nat → Int)
    (i : Int) (v v2 : P) (h : HostStore cs conf (Store.atom_pairs i v))
    (h2 : HostStore cs conf (Store.atom_pairs i v2)) : v = v2 := by
  rw [host_store_atom_pairs_iff] at h h2
  simp only [index_static_static_eq, index_static_pos_eq, index_pos_eq, index_pos_pos_eq] at h h2
  rcases h with ⟨hi, hv⟩ | ⟨p, hp, hc, (⟨hi, hv⟩ | ⟨hi, hv⟩ | ⟨q, hq, hcq, hi, hv⟩)⟩ <;>
  rcases h2 with ⟨hi2, hv2⟩ | ⟨p2, hp2, hc2, (⟨hi2, hv2⟩ | ⟨hi2, hv2⟩ | ⟨q2, hq2, hcq2, hi2, hv2⟩)⟩
  all_goals first
    | (exfalso; omega)
    | (subst hv hv2; rfl)
    | (have hpp : p = p2 := by omega
       subst hpp; subst hv hv2; rfl)
    | skip
  · have h3 : triangle p + q = triangle p2 + q2 := by omega
    have hpp : p = p2 := by
      rcases Nat.lt_trichotomy p p2 with hlt | heq | hgt
      · have := triangle_lt hlt; omega
      · exact heq
      · have := triangle_lt hgt; omega
    subst hpp
    have hqq : q = q2 := by omega
    subst hqq; subst hv hv2; rfl

/-! ## Position blocks of the atom buffer -/

theorem get?_some_lt {α : Type} {l : List α} {a : Nat} {v : α} (h : l.get? a = some v) :
    a < l.length := by
  by_contra hcon
  have : l.get? a = none := List.get?_eq_none.2 (by omega)
  rw [this] at h
  cases h

theorem loc_atoms_iff {T P : Type} (w : Store T P) (i : Int) :
    w.loc = Loc.atoms i ↔ ∃ v, w = Store.atoms i v := by
  cases w <;> simp [Store.loc]

theorem loc_index_offsets_iff {T P : Type} (w : Store T P) (i : Int) :
    w.loc = Loc.index_offsets i ↔ ∃ v, w = Store.index_offsets i v := by
  cases w <;> simp [Store.loc]

theorem loc_atom_pairs_iff {T P : Type} (w : Store T P) (i : Int) :
    w.loc = Loc.atom_pairs i ↔ ∃ v, w = Store.atom_pairs i v := by
  cases w <;> simp [Store.loc]

theorem loc_conf_energies_iff {T P : Type} (w : Store T P) (i : Int) :
    w.loc = Loc.conf_energies i ↔ ∃ v, w = Store.conf_energies i v := by
  cases w <;> simp [Store.loc]

/-- The atom stores of a position start at the offset of its block. -/
theorem host_pos_store_atoms_ge {T P : Type} [Zero T] (cs : ConfSpace T P) (conf : Nat → Int) (p : Nat)
    (i : Int) (v : Real3 T) (h : HostPosStore cs conf p (Store.atoms i v)) :
    (layout_offset cs p : Int) ≤ i := by
  rw [host_pos_store_atoms_iff] at h
  rcases h with ⟨_, (⟨a, _, h2⟩ | ⟨j, _, h2, _⟩)⟩ | ⟨_, j, _, h2, _⟩ <;> omega

/-- The atom stores of a position stay inside its block when the selected
conformation has at most the maximum atom count of the position. -/
theorem host_pos_store_atoms_lt {T P : Type} [Zero T] (cs : ConfSpace T P) (conf : Nat → Int) (p : Nat)
    (hv : conf p ≥ 0 → (selected cs conf p).atom_coords.length ≤ cs.max_num_atoms p)
    (i : Int) (v : Real3 T) (h : HostPosStore cs conf p (Store.atoms i v)) :
    i < (layout_offset cs (p + 1) : Int) := by
  rw [host_pos_store_atoms_iff] at h
  simp only [layout_offset]
  rcases h with ⟨hc, (⟨a, h1, h2⟩ | ⟨j, _, h2, _⟩)⟩ | ⟨_, j, _, h2, _⟩
  · have := get?_some_lt h1
    have := hv hc
    omega
  · omega
  · omega

/-- Within one position, an atom slot is stored one value only. -/
theorem host_pos_store_atoms_unique {T P : Type} [Zero T] (cs : ConfSpace T P) (conf : Nat → Int) (p : Nat)
    (i : Int) (v v2 : Real3 T) (h : HostPosStore cs conf p (Store.atoms i v))
    (h2 : HostPosStore cs conf p (Store.atoms i v2)) : v = v2 := by
  rw [host_pos_store_atoms_iff] at h h2
  rcases h with ⟨hc, (⟨a, h1, hi⟩ | ⟨j, _, hi, hv⟩)⟩ | ⟨hc, j, _, hi, hv⟩ <;>
  rcases h2 with ⟨hc2, (⟨a2, h12, hi2⟩ | ⟨j2, _, hi2, hv2⟩)⟩ | ⟨hc2, j2, _, hi2, hv2⟩
  · have : a = a2 := by omega
    subst this
    rw [h1] at h12
    exact Option.some.inj h12
  · have := get?_some_lt h1
    omega
  · exact absurd hc hc2
  · have := get?_some_lt h12
    omega
  · rw [hv, hv2]
  · exact absurd hc hc2
  · exact absurd hc2 hc
  · exact absurd hc2 hc
  · rw [hv, hv2]

/-- The stores of the host constructor, split around the iteration of position
`p`: what comes after are the stores of the later positions. -/
theorem host_stores_split {T P : Type} [Zero T] (cs : ConfSpace T P) (conf : Nat → Int) (p n : Nat)
    (hp : p < n) :
    ∃ pre body post, (host_pos_loop cs conf n).stores = pre ++ body ++ post ∧
      (∀ w, w ∈ body ↔ HostPosStore cs conf p w) ∧
      (∀ w, w ∈ post → ∃ q, p < q ∧ q < n ∧ HostPosStore cs conf q w) := by
  induction n with
  | zero => omega
  | succ n ih =>
    by_cases hpn : p = n
    · subst hpn
      refine ⟨(host_pos_loop cs conf p).stores,
        (host_pos_body cs conf p ⟨(host_pos_loop cs conf p).offset, []⟩).stores, [], ?_, ?_, ?_⟩
      · simp only [host_pos_loop, List.append_nil]
        exact host_pos_body_stores cs conf p _
      · intro w
        rw [mem_host_pos_body cs conf p ⟨(host_pos_loop cs conf p).offset, []⟩
          (host_pos_loop_offset cs conf p)]
        simp
      · intro w hw; cases hw
    · obtain ⟨pre, body, post, h1, h2, h3⟩ := ih (by omega)
      refine ⟨pre, body,
        post ++ (host_pos_body cs conf n ⟨(host_pos_loop cs conf n).offset, []⟩).stores,
        ?_, h2, ?_⟩
      · simp only [host_pos_loop]
        rw [host_pos_body_stores, h1]
        simp [List.append_assoc]
      · intro w hw
        rcases List.mem_append.1 hw with hw | hw
        · obtain ⟨q, hq1, hq2, hq3⟩ := h3 w hw
          exact ⟨q, hq1, by omega, hq3⟩
        · rw [mem_host_pos_body cs conf n ⟨(host_pos_loop cs conf n).offset, []⟩
            (host_pos_loop_offset cs conf n)] at hw
          simp only [List.not_mem_nil, false_or] at hw
          exact ⟨n, by omega, by omega, hw⟩

/-- What an atom slot of the block of position `p` holds after the host
constructor is what iteration `p` stored there. -/
theorem host_atoms_of_pos_store {T P : Type} [Zero T] (cs : ConfSpace T P) (conf : Nat → Int)
    (fresh : Arrays T P) (p : Nat) (hp : p < cs.num_pos) (i : Int) (v : Real3 T)
    (hs : HostPosStore cs conf p (Store.atoms i v)) (hi : i < (layout_offset cs (p + 1) : Int)) :
    (fresh.run (host_stores cs conf)).atoms i = v := by
  obtain ⟨pre, body, post, h1, h2, h3⟩ := host_stores_split cs conf p cs.num_pos hp
  unfold host_stores
  rw [h1, run_append, run_append]
  have hpost : ((fresh.run pre).run body).run post |>.same_at ((fresh.run pre).run body)
      (Loc.atoms i) := by
    apply run_frame
    intro w hw hl
    obtain ⟨q, hq1, _, hq3⟩ := h3 w hw
    obtain ⟨v2, rfl⟩ := (loc_atoms_iff w i).1 hl
    have := host_pos_store_atoms_ge cs conf q i v2 hq3
    have := layout_offset_mono cs (show p + 1 ≤ q by omega)
    omega
  have hbody : ((fresh.run pre).run body).holds (Store.atoms i v) := by
    apply run_holds body _ _ ((h2 _).2 hs)
    intro w2 hw2 hl
    obtain ⟨v2, rfl⟩ := (loc_atoms_iff w2 i).1 hl
    rw [host_pos_store_atoms_unique cs conf p i v2 v ((h2 _).1 hw2) hs]
  exact Eq.trans hpost hbody

/-- After the host constructor, the entry of a position in the table of offsets
is the offset of the block of the position in the layout. -/
theorem host_index_offsets {T P : Type} [Zero T] (cs : ConfSpace T P) (conf : Nat → Int)
    (fresh : Arrays T P) (p : Nat) (hp : p < cs.num_pos) :
    (fresh.run (host_stores cs conf)).index_offsets p = (layout_offset cs p : Int) := by
  have hw : Store.index_offsets (p : Int) (layout_offset cs p : Int) ∈ host_stores cs conf := by
    rw [mem_host_stores, host_store_index_offsets_iff]
    exact ⟨p, hp, rfl, rfl⟩
  refine run_holds _ fresh _ hw ?_
  intro w2 hw2 hl
  obtain ⟨v2, rfl⟩ := (loc_index_offsets_iff w2 _).1 hl
  rw [mem_host_stores, host_store_index_offsets_iff] at hw2
  obtain ⟨q, _, hq1, hq2⟩ := hw2
  have : q = p := by omega
  subst this
  rw [hq2]

theorem layout_offset_eq_sum {T P : Type} (cs : ConfSpace T P) (p : Nat) :
    (layout_offset cs p : Int) = (cs.static_atom_coords.length : Int) +
      Finset.sum (Finset.range p) (fun q => (cs.max_num_atoms q : Int)) := by
  induction p with
  | zero => simp [layout_offset]
  | succ p ih =>
    rw [Finset.sum_range_succ]
    simp only [layout_offset]
    push_cast
    rw [ih]
    ring

/-- C1: after sequential construction, for every position get_index(p, 0) is
index_offsets[p]; when the position is assigned and its conformation has at most
max_num_atoms(p) atoms, the buffer holds the atoms of the conformation at
get_index(p, a) and the zero vector in the remaining slots of the block; when
the position is unassigned, every slot of the block holds the zero vector. -/
theorem C1_position_block {T P : Type} [Zero T] (cs : ConfSpace T P) (conf : Nat → Int)
    (fresh : Arrays T P) (p : Nat) (hp : p < cs.num_pos) :
    (Assignment.construct cs conf fresh).get_index p 0 =
        (Assignment.construct cs conf fresh).arrays.index_offsets p ∧
    (conf p ≥ 0 → (cs.get_conf p (conf p)).atom_coords.length ≤ cs.max_num_atoms p →
      (∀ (a : Nat) (v : Real3 T), (cs.get_conf p (conf p)).atom_coords.get? a = some v →
        (Assignment.construct cs conf fresh).arrays.atoms
          ((Assignment.construct cs conf fresh).get_index p a) = v) ∧
      (∀ a : Nat, (cs.get_conf p (conf p)).atom_coords.length ≤ a → a < cs.max_num_atoms p →
        (Assignment.construct cs conf fresh).arrays.atoms
          ((Assignment.construct cs conf fresh).get_index p a) = 0)) ∧
    (conf p < 0 → ∀ a : Nat, a < cs.max_num_atoms p →
      (Assignment.construct cs conf fresh).arrays.atoms
        ((Assignment.construct cs conf fresh).arrays.index_offsets p + a) = 0) := by
  have hoff := host_index_offsets cs conf fresh p hp
  simp only [Assignment.construct, Assignment.get_index, hoff]
  refine ⟨by simp, ?_, ?_⟩
  · intro hc hk
    constructor
    · intro a v hav
      have ha := get?_some_lt hav
      apply host_atoms_of_pos_store cs conf fresh p hp
      · rw [host_pos_store_atoms_iff]
        exact Or.inl ⟨hc, Or.inl ⟨a, hav, rfl⟩⟩
      · simp only [layout_offset]; omega
    · intro a hka ham
      apply host_atoms_of_pos_store cs conf fresh p hp
      · rw [host_pos_store_atoms_iff]
        refine Or.inl ⟨hc, Or.inr ⟨a - (cs.get_conf p (conf p)).atom_coords.length, ?_, ?_, rfl⟩⟩
        · simp only [selected]; omega
        · simp only [selected]; omega
      · simp only [layout_offset]; omega
  · intro hc a ham
    apply host_atoms_of_pos_store cs conf fresh p hp
    · rw [host_pos_store_atoms_iff]
      exact Or.inr ⟨by omega, a, ham, rfl, rfl⟩
    · simp only [layout_offset]; omega

theorem C1_position_block_witness :
    (0 < example_space.num_pos ∧ 1 < example_space.num_pos) ∧
    (Assignment.construct example_space example_conf example_fresh).arrays.atoms
      ((Assignment.construct example_space example_conf example_fresh).get_index 0 0) =
        example_atom 0 ∧
    (Assignment.construct example_space example_conf example_fresh).arrays.atoms
      ((Assignment.construct example_space example_conf example_fresh).get_index 0 1) = 0 ∧
    (Assignment.construct example_space example_conf example_fresh).arrays.atoms
      ((Assignment.construct example_space example_conf example_fresh).arrays.index_offsets 1
        + 2) = 0 :=
  ⟨by decide,
    ((C1_position_block example_space example_conf example_fresh 0 (by decide)).2.1
      (by decide) (by decide)).1 0 (example_atom 0) (by decide),
    ((C1_position_block example_space example_conf example_fresh 0 (by decide)).2.1
      (by decide) (by decide)).2 1 (by decide) (by decide),
    (C1_position_block example_space example_conf example_fresh 1 (by decide)).2.2
      (by decide) 2 (by decide)⟩

/-- C4: sequential construction records index_offsets[p] as the number of static
atoms plus the maximum atom counts of the positions before p, and leaves the
position loop with the offset at the number of static atoms plus the maximum
atom counts of all positions, whatever the assignment vector and whatever the
atom counts of the selected conformations. -/
theorem C4_fixed_offsets {T P : Type} [Zero T] (cs : ConfSpace T P) (conf : Nat → Int)
    (fresh : Arrays T P) :
    (∀ p, p < cs.num_pos →
      (Assignment.construct cs conf fresh).arrays.index_offsets p =
        (cs.static_atom_coords.length : Int) +
          Finset.sum (Finset.range p) (fun q => (cs.max_num_atoms q : Int))) ∧
    host_final_offset cs conf =
      (cs.static_atom_coords.length : Int) +
        Finset.sum (Finset.range cs.num_pos) (fun q => (cs.max_num_atoms q : Int)) ∧
    (∀ (cs2 : ConfSpace T P) (conf2 : Nat → Int) (fresh2 : Arrays T P),
      cs2.num_pos = cs.num_pos →
      cs2.static_atom_coords.length = cs.static_atom_coords.length →
      (∀ q, cs2.max_num_atoms q = cs.max_num_atoms q) →
      host_final_offset cs2 conf2 = host_final_offset cs conf ∧
      ∀ p, p < cs.num_pos →
        (Assignment.construct cs2 conf2 fresh2).arrays.index_offsets p =
          (Assignment.construct cs conf fresh).arrays.index_offsets p) := by
  have h1 : ∀ (cs : ConfSpace T P) (conf : Nat → Int) (fresh : Arrays T P) (p : Nat),
      p < cs.num_pos →
      (Assignment.construct cs conf fresh).arrays.index_offsets p =
        (cs.static_atom_coords.length : Int) +
          Finset.sum (Finset.range p) (fun q => (cs.max_num_atoms q : Int)) := by
    intro cs conf fresh p hp
    rw [← layout_offset_eq_sum]
    exact host_index_offsets cs conf fresh p hp
  have h2 : ∀ (cs : ConfSpace T P) (conf : Nat → Int), host_final_offset cs conf =
      (cs.static_atom_coords.length : Int) +
        Finset.sum (Finset.range cs.num_pos) (fun q => (cs.max_num_atoms q : Int)) := by
    intro cs conf
    rw [← layout_offset_eq_sum]
    exact host_pos_loop_offset cs conf cs.num_pos
  refine ⟨h1 cs conf fresh, h2 cs conf, ?_⟩
  intro cs2 conf2 fresh2 hn hs hm
  constructor
  · rw [h2, h2, hn, hs]
    simp only [hm]
  · intro p hp
    rw [h1 cs2 conf2 fresh2 p (by omega), h1 cs conf fresh p hp, hs]
    simp only [hm]

theorem C4_fixed_offsets_witness :
    2 < example_space.num_pos ∧
    (Assignment.construct example_space example_conf example_fresh).arrays.index_offsets
      ((2 : Nat) : Int) =
        (example_space.static_atom_coords.length : Int) +
          Finset.sum (Finset.range 2) (fun q => (example_space.max_num_atoms q : Int)) :=
  ⟨by decide, (C4_fixed_offsets example_space example_conf example_fresh).1 2 (by decide)⟩

/-! ## The term table -/

theorem mem_atom_pairs_written {T P : Type} (ws : List (Store T P)) (k : Int) :
    k ∈ atom_pairs_written ws ↔ ∃ v, Store.atom_pairs k v ∈ ws := by
  unfold atom_pairs_written
  simp only [List.mem_filterMap]
  constructor
  · rintro ⟨w, hw, h⟩
    cases w <;> simp at h
    subst h
    exact ⟨_, hw⟩
  · rintro ⟨v, hv⟩
    exact ⟨_, hv, rfl⟩

/-- Every store of the host constructor into the term table is still in the
table when the constructor returns. -/
theorem host_atom_pairs_kept {T P : Type} [Zero T] (cs : ConfSpace T P) (conf : Nat → Int)
    (fresh : Arrays T P) (k : Int) (v : P) (h : Store.atom_pairs k v ∈ host_stores cs conf) :
    (fresh.run (host_stores cs conf)).atom_pairs k = v := by
  refine run_holds _ fresh _ h ?_
  intro w2 hw2 hl
  obtain ⟨v2, rfl⟩ := (loc_atom_pairs_iff w2 _).1 hl
  rw [host_store_atom_pairs_unique cs conf k v2 v ((mem_host_stores cs conf _).1 hw2)
    ((mem_host_stores cs conf _).1 h)]

/-- Every store of the host constructor into the table of internal energies is
still in the table when the constructor returns. -/
theorem host_conf_energies_kept {T P : Type} [Zero T] (cs : ConfSpace T P) (conf : Nat → Int)
    (fresh : Arrays T P) (k : Int) (v : T) (h : Store.conf_energies k v ∈ host_stores cs conf) :
    (fresh.run (host_stores cs conf)).conf_energies k = v := by
  refine run_holds _ fresh _ h ?_
  intro w2 hw2 hl
  obtain ⟨v2, rfl⟩ := (loc_conf_energies_iff w2 _).1 hl
  rw [mem_host_stores, host_store_conf_energies_iff] at hw2 h
  obtain ⟨q, _, _, hq1, hq2⟩ := hw2
  obtain ⟨q2, _, _, hq3, hq4⟩ := h
  have : q = q2 := by omega
  subst this
  rw [hq2, hq4]

/-- After the host constructor, the pair slot of two assigned positions holds
the descriptor of the pair. -/
theorem host_pair_slot_kept {T P : Type} [Zero T] (cs : ConfSpace T P) (conf : Nat → Int)
    (fresh : Arrays T P) (i j : Nat) (hji : j < i) (hi : i < cs.num_pos) (hci : conf i ≥ 0)
    (hcj : conf j ≥ 0) :
    (fresh.run (host_stores cs conf)).atom_pairs (cs.index_pos_pos i j) =
      cs.get_pos_pos_pairs i (cs.get_conf i (conf i)).frag_index j
        (cs.get_conf j (conf j)).frag_index := by
  apply host_atom_pairs_kept
  rw [mem_host_stores, host_store_atom_pairs_iff]
  exact Or.inr ⟨i, hi, hci, Or.inr (Or.inr ⟨j, hji, hcj, rfl, rfl⟩)⟩

/-- After the host constructor, the entry of an assigned position in the table
of internal energies is the internal energy of its conformation. -/
theorem host_conf_energy_kept {T P : Type} [Zero T] (cs : ConfSpace T P) (conf : Nat → Int)
    (fresh : Arrays T P) (p : Nat) (hp : p < cs.num_pos) (hc : conf p ≥ 0) :
    (fresh.run (host_stores cs conf)).conf_energies p =
      (cs.get_conf p (conf p)).internal_energy := by
  apply host_conf_energies_kept
  rw [mem_host_stores, host_store_conf_energies_iff]
  exact ⟨p, hp, hc, rfl, rfl⟩

/-- The slots of the term table the host constructor stores into. -/
theorem host_atom_pairs_written {T P : Type} [Zero T] (cs : ConfSpace T P) (conf : Nat → Int) (k : Int) :
    k ∈ atom_pairs_written (host_stores cs conf) ↔
      k = cs.index_static_static ∨
      (∃ p, p < cs.num_pos ∧ conf p ≥ 0 ∧ (k = cs.index_static_pos p ∨ k = cs.index_pos p)) ∨
      (∃ i j, j < i ∧ i < cs.num_pos ∧ conf i ≥ 0 ∧ conf j ≥ 0 ∧ k = cs.index_pos_pos i j) := by
  rw [mem_atom_pairs_written]
  simp only [mem_host_stores, host_store_atom_pairs_iff]
  constructor
  · rintro ⟨v, (⟨h, _⟩ | ⟨p, hp, hc, (⟨h, _⟩ | ⟨h, _⟩ | ⟨q, hq, hcq, h, _⟩)⟩)⟩
    · exact Or.inl h
    · exact Or.inr (Or.inl ⟨p, hp, hc, Or.inl h⟩)
    · exact Or.inr (Or.inl ⟨p, hp, hc, Or.inr h⟩)
    · exact Or.inr (Or.inr ⟨p, q, hq, hp, hc, hcq, h⟩)
  · rintro (h | ⟨p, hp, hc, (h | h)⟩ | ⟨p, q, hq, hp, hc, hcq, h⟩)
    · exact ⟨_, Or.inl ⟨h, rfl⟩⟩
    · exact ⟨_, Or.inr ⟨p, hp, hc, Or.inl ⟨h, rfl⟩⟩⟩
    · exact ⟨_, Or.inr ⟨p, hp, hc, Or.inr (Or.inl ⟨h, rfl⟩)⟩⟩
    · exact ⟨_, Or.inr ⟨p, hp, hc, Or.inr (Or.inr ⟨q, hq, hcq, h, rfl⟩)⟩⟩

/-- A slot of the term table the host constructor does not store into holds
what it held before. -/
theorem host_atom_pairs_frame {T P : Type} [Zero T] (cs : ConfSpace T P) (conf : Nat → Int)
    (fresh : Arrays T P) (k : Int) (h : k ∉ atom_pairs_written (host_stores cs conf)) :
    (fresh.run (host_stores cs conf)).atom_pairs k = fresh.atom_pairs k := by
  refine run_frame _ fresh (Loc.atom_pairs k) ?_
  intro w hw hl
  obtain ⟨v, rfl⟩ := (loc_atom_pairs_iff w _).1 hl
  exact h ((mem_atom_pairs_written _ _).2 ⟨v, hw⟩)

/-- C2: after sequential construction the term table holds the recorded
descriptors: the static/static slot, the static/position and position-internal
slots of every assigned position, the pair slot of every two assigned
positions, and the table of internal energies holds the internal energy of the
conformation of every assigned position; every store the constructor makes
into the two tables is still there when it returns. -/
theorem C2_term_table {T P : Type} [Zero T] (cs : ConfSpace T P) (conf : Nat → Int) (fresh : Arrays T P) :
    (Assignment.construct cs conf fresh).arrays.atom_pairs cs.index_static_static =
      cs.get_static_static_pair ∧
    (∀ p, p < cs.num_pos → conf p ≥ 0 →
      (Assignment.construct cs conf fresh).arrays.atom_pairs (cs.index_static_pos p) =
        cs.get_static_pos_pairs p (cs.get_conf p (conf p)).frag_index ∧
      (Assignment.construct cs conf fresh).arrays.atom_pairs (cs.index_pos p) =
        cs.get_pos_pairs p (cs.get_conf p (conf p)).frag_index ∧
      (Assignment.construct cs conf fresh).get_conf_energy p =
        (cs.get_conf p (conf p)).internal_energy) ∧
    (∀ i j, j < i → i < cs.num_pos → conf i ≥ 0 → conf j ≥ 0 →
      (Assignment.construct cs conf fresh).arrays.atom_pairs (cs.index_pos_pos i j) =
        cs.get_pos_pos_pairs i (cs.get_conf i (conf i)).frag_index j
          (cs.get_conf j (conf j)).frag_index) ∧
    (∀ (k : Int) (v : P), Store.atom_pairs k v ∈ host_stores cs conf →
      (Assignment.construct cs conf fresh).arrays.atom_pairs k = v) ∧
    (∀ (k : Int) (v : T), Store.conf_energies k v ∈ host_stores cs conf →
      (Assignment.construct cs conf fresh).arrays.conf_energies k = v) := by
  simp only [Assignment.construct, Assignment.get_conf_energy]
  refine ⟨?_, ?_, ?_, ?_, ?_⟩
  · apply host_atom_pairs_kept
    rw [mem_host_stores, host_store_atom_pairs_iff]
    exact Or.inl ⟨rfl, rfl⟩
  · intro p hp hc
    refine ⟨?_, ?_, ?_⟩
    · apply host_atom_pairs_kept
      rw [mem_host_stores, host_store_atom_pairs_iff]
      exact Or.inr ⟨p, hp, hc, Or.inl ⟨rfl, rfl⟩⟩
    · apply host_atom_pairs_kept
      rw [mem_host_stores, host_store_atom_pairs_iff]
      exact Or.inr ⟨p, hp, hc, Or.inr (Or.inl ⟨rfl, rfl⟩)⟩
    · exact host_conf_energy_kept cs conf fresh p hp hc
  · intro i j hji hi hci hcj
    exact host_pair_slot_kept cs conf fresh i j hji hi hci hcj
  · intro k v h
    exact host_atom_pairs_kept cs conf fresh k v h
  · intro k v h
    exact host_conf_energies_kept cs conf fresh k v h

theorem C2_term_table_witness :
    ((0 : Nat) < 2 ∧ 2 < example_space.num_pos ∧ example_conf 2 ≥ 0 ∧ example_conf 0 ≥ 0) ∧
    (Assignment.construct example_space example_conf example_fresh).arrays.atom_pairs
      (example_space.index_pos_pos ((2 : Nat) : Int) ((0 : Nat) : Int)) = 34100 :=
  ⟨by decide,
    (C2_term_table example_space example_conf example_fresh).2.2.1 2 0 (by decide) (by decide)
      (by decide) (by decide)⟩

/-- C3: the slots of the term table that sequential construction stores into
are the static/static slot, the static/position and position-internal slots of
the assigned positions, and the pair slots of the pairs of assigned positions;
every other slot keeps the value it had before construction. A pair slot is
stored into exactly when both positions are assigned, the slots of an unassigned
position are not stored into, and when no position is assigned only the
static/static slot is. In the example with three positions and the assignment
0, unassigned, 1 the slots stored into are static/static, static/position 0,
position 0, static/position 2, position 2 and the pair 2, 0. -/
theorem C3_written_slots {T P : Type} [Zero T] (cs : ConfSpace T P) (conf : Nat → Int)
    (fresh : Arrays T P) :
    (∀ k : Int, k ∈ atom_pairs_written (host_stores cs conf) ↔
      k = cs.index_static_static ∨
      (∃ p, p < cs.num_pos ∧ conf p ≥ 0 ∧ (k = cs.index_static_pos p ∨ k = cs.index_pos p)) ∨
      (∃ i j, j < i ∧ i < cs.num_pos ∧ conf i ≥ 0 ∧ conf j ≥ 0 ∧ k = cs.index_pos_pos i j)) ∧
    (∀ k : Int, k ∉ atom_pairs_written (host_stores cs conf) →
      (Assignment.construct cs conf fresh).arrays.atom_pairs k = fresh.atom_pairs k) ∧
    (∀ i j, j < i → i < cs.num_pos →
      (cs.index_pos_pos i j ∈ atom_pairs_written (host_stores cs conf) ↔
        conf i ≥ 0 ∧ conf j ≥ 0)) ∧
    (∀ p, p < cs.num_pos → conf p < 0 →
      cs.index_static_pos p ∉ atom_pairs_written (host_stores cs conf) ∧
      cs.index_pos p ∉ atom_pairs_written (host_stores cs conf)) ∧
    ((∀ p, p < cs.num_pos → conf p < 0) →
      ∀ k : Int, k ∈ atom_pairs_written (host_stores cs conf) ↔ k = cs.index_static_static) ∧
    atom_pairs_written (host_stores example_space example_conf) =
      [example_space.index_static_static,
        example_space.index_static_pos 0, example_space.index_pos 0,
        example_space.index_static_pos 2, example_space.index_pos 2,
        example_space.index_pos_pos 2 0] := by
  refine ⟨host_atom_pairs_written cs conf, ?_, ?_, ?_, ?_, by decide⟩
  · intro k hk
    exact host_atom_pairs_frame cs conf fresh k hk
  · intro i j hji hi
    rw [host_atom_pairs_written]
    simp only [index_static_static_eq, index_static_pos_eq, index_pos_eq, index_pos_pos_eq]
    constructor
    · rintro (h | ⟨p, hp, hc, (h | h)⟩ | ⟨i2, j2, hji2, hi2, hci, hcj, h⟩)
      · omega
      · omega
      · omega
      · have h3 : triangle i + j = triangle i2 + j2 := by omega
        have hpp : i = i2 := by
          rcases Nat.lt_trichotomy i i2 with hlt | heq | hgt
          · have := triangle_lt hlt; omega
          · exact heq
          · have := triangle_lt hgt; omega
        subst hpp
        have hqq : j = j2 := by omega
        subst hqq
        exact ⟨hci, hcj⟩
    · rintro ⟨hci, hcj⟩
      exact Or.inr (Or.inr ⟨i, j, hji, hi, hci, hcj, rfl⟩)
  · intro p hp hc
    rw [host_atom_pairs_written, host_atom_pairs_written]
    simp only [index_static_static_eq, index_static_pos_eq, index_pos_eq, index_pos_pos_eq]
    constructor
    · rintro (h | ⟨p2, hp2, hc2, (h | h)⟩ | ⟨i2, j2, hji2, hi2, hci, hcj, h⟩)
      · omega
      · have : p = p2 := by omega
        subst this; omega
      · omega
      · omega
    · rintro (h | ⟨p2, hp2, hc2, (h | h)⟩ | ⟨i2, j2, hji2, hi2, hci, hcj, h⟩)
      · omega
      · omega
      · have : p = p2 := by omega
        subst this; omega
      · omega
  · intro hall k
    rw [host_atom_pairs_written]
    constructor
    · rintro (h | ⟨p, hp, hc, _⟩ | ⟨i, j, _, hi, hci, _, _⟩)
      · exact h
      · have := hall p hp; omega
      · have := hall i hi; omega
    · intro h
      exact Or.inl h

theorem C3_written_slots_witness :
    (example_space.index_pos_pos ((2 : Nat) : Int) ((1 : Nat) : Int) ∉
      atom_pairs_written (host_stores example_space example_conf)) ∧
    (Assignment.construct example_space example_conf example_fresh).arrays.atom_pairs
      (example_space.index_pos_pos ((2 : Nat) : Int) ((1 : Nat) : Int)) =
        example_fresh.atom_pairs
          (example_space.index_pos_pos ((2 : Nat) : Int) ((1 : Nat) : Int)) :=
  ⟨by decide,
    (C3_written_slots example_space example_conf example_fresh).2.1 _ (by decide)⟩

/-! ## The stores of the device threads and of the host constructor -/

/-- Every store of a device thread is a store of the host constructor. -/
theorem device_store_host {T P : Type} [Zero T] (cs : ConfSpace T P) (conf : Nat → Int) (B t : Nat)
    (w : Store T P) (h : DeviceStore cs conf B t w) : HostStore cs conf w := by
  rcases h with ⟨a, v, _, h1, h2⟩ | ⟨_, h⟩ | ⟨p, hp, h⟩
  · exact Or.inl ⟨a, v, h1, h2⟩
  · exact Or.inr (Or.inl h)
  · refine Or.inr (Or.inr ⟨p, hp, ?_⟩)
    rcases h with h | ⟨hc, h⟩ | ⟨hc, j, _, h1, h2⟩
    · exact Or.inl h
    · refine Or.inr (Or.inl ⟨hc, ?_⟩)
      rcases h with ⟨a, v, _, h1, h2⟩ | ⟨_, h⟩ | ⟨_, h⟩ | ⟨_, h⟩ | ⟨q, hq, _, hcq, h⟩ |
        ⟨j, _, h1, h2⟩
      · exact Or.inl ⟨a, v, h1, h2⟩
      · exact Or.inr (Or.inl h)
      · exact Or.inr (Or.inr (Or.inl h))
      · exact Or.inr (Or.inr (Or.inr (Or.inl h)))
      · exact Or.inr (Or.inr (Or.inr (Or.inr (Or.inl ⟨q, hq, hcq, h⟩))))
      · exact Or.inr (Or.inr (Or.inr (Or.inr (Or.inr ⟨j, h1, h2⟩))))
    · exact Or.inr (Or.inr ⟨hc, j, h1, h2⟩)

/-- Every store of the host constructor is a store of some thread of the
block. -/
theorem host_store_device {T P : Type} [Zero T] (cs : ConfSpace T P) (conf : Nat → Int) (B : Nat)
    (hB : 0 < B) (w : Store T P) (h : HostStore cs conf w) :
    ∃ t, t < B ∧ DeviceStore cs conf B t w := by
  rcases h with ⟨a, v, h1, h2⟩ | h | ⟨p, hp, h⟩
  · exact ⟨a % B, Nat.mod_lt a hB, Or.inl ⟨a, v, rfl, h1, h2⟩⟩
  · exact ⟨0, hB, Or.inr (Or.inl ⟨rfl, h⟩)⟩
  · rcases h with h | ⟨hc, h⟩ | ⟨hc, j, h1, h2⟩
    · exact ⟨0, hB, Or.inr (Or.inr ⟨p, hp, Or.inl h⟩)⟩
    · rcases h with ⟨a, v, h1, h2⟩ | h | h | h | ⟨q, hq, hcq, h⟩ | ⟨j, h1, h2⟩
      · exact ⟨a % B, Nat.mod_lt a hB, Or.inr (Or.inr ⟨p, hp, Or.inr (Or.inl ⟨hc,
          Or.inl ⟨a, v, rfl, h1, h2⟩⟩)⟩)⟩
      · exact ⟨0, hB, Or.inr (Or.inr ⟨p, hp, Or.inr (Or.inl ⟨hc,
          Or.inr (Or.inl ⟨rfl, h⟩)⟩)⟩)⟩
      · exact ⟨0, hB, Or.inr (Or.inr ⟨p, hp, Or.inr (Or.inl ⟨hc,
          Or.inr (Or.inr (Or.inl ⟨rfl, h⟩))⟩)⟩)⟩
      · exact ⟨0, hB, Or.inr (Or.inr ⟨p, hp, Or.inr (Or.inl ⟨hc,
          Or.inr (Or.inr (Or.inr (Or.inl ⟨rfl, h⟩)))⟩)⟩)⟩
      · exact ⟨q % B, Nat.mod_lt q hB, Or.inr (Or.inr ⟨p, hp, Or.inr (Or.inl ⟨hc,
          Or.inr (Or.inr (Or.inr (Or.inr (Or.inl ⟨q, hq, rfl, hcq, h⟩))))⟩)⟩)⟩
      · exact ⟨j % B, Nat.mod_lt j hB, Or.inr (Or.inr ⟨p, hp, Or.inr (Or.inl ⟨hc,
          Or.inr (Or.inr (Or.inr (Or.inr (Or.inr ⟨j, rfl, h1, h2⟩))))⟩)⟩)⟩
    · exact ⟨j % B, Nat.mod_lt j hB, Or.inr (Or.inr ⟨p, hp, Or.inr (Or.inr
        ⟨hc, j, rfl, h1, h2⟩)⟩)⟩

/-- For a valid assignment vector, the host constructor stores one value only
into an atom slot. -/
theorem host_store_atoms_unique {T P : Type} [Zero T] (cs : ConfSpace T P) (conf : Nat → Int)
    (hv : valid_conf cs conf) (i : Int) (v v2 : Real3 T)
    (h : HostStore cs conf (Store.atoms i v)) (h2 : HostStore cs conf (Store.atoms i v2)) :
    v = v2 := by
  rw [host_store_atoms_iff] at h h2
  rcases h with ⟨a, h1, hi⟩ | ⟨p, hp, h⟩ <;> rcases h2 with ⟨a2, h12, hi2⟩ | ⟨p2, hp2, h2⟩
  · have : a = a2 := by omega
    subst this
    rw [h1] at h12
    exact Option.some.inj h12
  · have := get?_some_lt h1
    have := host_pos_store_atoms_ge cs conf p2 i v2 h2
    have := layout_offset_static_le cs p2
    omega
  · have := get?_some_lt h12
    have := host_pos_store_atoms_ge cs conf p i v h
    have := layout_offset_static_le cs p
    omega
  · have hge := host_pos_store_atoms_ge cs conf p i v h
    have hge2 := host_pos_store_atoms_ge cs conf p2 i v2 h2
    have hlt := host_pos_store_atoms_lt cs conf p (hv p hp) i v h
    have hlt2 := host_pos_store_atoms_lt cs conf p2 (hv p2 hp2) i v2 h2
    have hpp : p = p2 := by
      rcases Nat.lt_trichotomy p p2 with hl | he | hg
      · have := layout_offset_mono cs (show p + 1 ≤ p2 by omega); omega
      · exact he
      · have := layout_offset_mono cs (show p2 + 1 ≤ p by omega); omega
    subst hpp
    exact host_pos_store_atoms_unique cs conf p i v v2 h h2

/-- For a valid assignment vector, no two stores of the host constructor put
different values into one location. -/
theorem host_stores_functional {T P : Type} [Zero T] (cs : ConfSpace T P) (conf : Nat → Int)
    (hv : valid_conf cs conf) : Functional (host_stores cs conf) := by
  intro w hw w2 hw2 hl
  rw [mem_host_stores] at hw hw2
  cases w with
  | atoms i v =>
    obtain ⟨v2, rfl⟩ := (loc_atoms_iff w2 i).1 hl.symm
    rw [host_store_atoms_unique cs conf hv i v v2 hw hw2]
  | index_offsets i v =>
    obtain ⟨v2, rfl⟩ := (loc_index_offsets_iff w2 i).1 hl.symm
    rw [host_store_index_offsets_iff] at hw hw2
    obtain ⟨q, _, hq1, hq2⟩ := hw
    obtain ⟨q2, _, hq3, hq4⟩ := hw2
    have : q = q2 := by omega
    subst this
    rw [hq2, hq4]
  | atom_pairs i v =>
    obtain ⟨v2, rfl⟩ := (loc_atom_pairs_iff w2 i).1 hl.symm
    rw [host_store_atom_pairs_unique cs conf i v v2 hw hw2]
  | conf_energies i v =>
    obtain ⟨v2, rfl⟩ := (loc_conf_energies_iff w2 i).1 hl.symm
    rw [host_store_conf_energies_iff] at hw hw2
    obtain ⟨q, _, _, hq1, hq2⟩ := hw
    obtain ⟨q2, _, _, hq3, hq4⟩ := hw2
    have : q = q2 := by omega
    subst this
    rw [hq2, hq4]

/-! ## Schedules of a block -/

theorem block_step_some {T P : Type} (pending pending2 : List (List (Store T P))) (m m2 : Arrays T P)
    (t : Nat) (h : block_step pending m t = some (pending2, m2)) :
    ∃ w rest, pending.get? t = some (w :: rest) ∧ pending2 = pending.set t rest ∧
      m2 = m.store w := by
  unfold block_step at h
  split at h
  · rename_i w rest hg
    simp only [Option.some.injEq, Prod.mk.injEq] at h
    exact ⟨w, rest, hg, h.1.symm, h.2.symm⟩
  · cases h

/-- A step of the block moves one store from the pending stores of a thread to
the arrays. -/
theorem block_step_mem {T P : Type} (pending pending2 : List (List (Store T P))) (m m2 : Arrays T P)
    (t : Nat) (h : block_step pending m t = some (pending2, m2)) :
    ∃ w, m2 = m.store w ∧
      ∀ x, (∃ thread ∈ pending, x ∈ thread) ↔ (x = w ∨ ∃ thread ∈ pending2, x ∈ thread) := by
  obtain ⟨w, rest, hg, rfl, rfl⟩ := block_step_some pending pending2 m m2 t h
  refine ⟨w, rfl, ?_⟩
  have hlt : t < pending.length := get?_some_lt hg
  intro x
  simp only [List.mem_iff_get?]
  constructor
  · rintro ⟨thread, ⟨s, hs⟩, hx⟩
    by_cases hst : s = t
    · subst hst
      rw [hg] at hs
      have : thread = w :: rest := (Option.some.inj hs).symm
      subst this
      obtain ⟨n, hn⟩ := hx
      cases n with
      | zero => left; simpa using hn.symm
      | succ n =>
        right
        refine ⟨rest, ⟨s, ?_⟩, ⟨n, by simpa using hn⟩⟩
        simp [List.getElem?_set, hlt]
    · right
      refine ⟨thread, ⟨s, ?_⟩, hx⟩
      rw [List.get?_eq_getElem?, List.getElem?_set_ne (Ne.symm hst), ← List.get?_eq_getElem?]
      exact hs
  · rintro (hx | ⟨thread, ⟨s, hs⟩, hx⟩)
    · subst hx
      exact ⟨x :: rest, ⟨t, hg⟩, ⟨0, by simp⟩⟩
    · by_cases hst : s = t
      · subst hst
        have e : rest = thread := by simpa [List.getElem?_set, hlt] using hs
        rw [← e] at hx
        obtain ⟨n, hn⟩ := hx
        exact ⟨w :: rest, ⟨s, hg⟩, ⟨n + 1, by simpa using hn⟩⟩
      · refine ⟨thread, ⟨s, ?_⟩, hx⟩
        rw [List.get?_eq_getElem?, List.getElem?_set_ne (Ne.symm hst),
          ← List.get?_eq_getElem?] at hs
        exact hs

/-- A run of the block performs a sequence of stores: those that were pending
and are no longer. -/
theorem block_run_mem {T P : Type} (schedule : List Nat) (pending pending2 : List (List (Store T P)))
    (m m2 : Arrays T P) (h : block_run schedule pending m = some (pending2, m2)) :
    ∃ ws, m2 = m.run ws ∧
      ∀ x, (∃ thread ∈ pending, x ∈ thread) ↔ (x ∈ ws ∨ ∃ thread ∈ pending2, x ∈ thread) := by
  induction schedule generalizing pending m with
  | nil =>
    simp only [block_run, Option.some.injEq, Prod.mk.injEq] at h
    obtain ⟨rfl, rfl⟩ := h
    exact ⟨[], rfl, by simp⟩
  | cons t schedule ih =>
    simp only [block_run] at h
    split at h
    · rename_i p3 m3 hstep
      obtain ⟨w, rfl, hw⟩ := block_step_mem pending p3 m m3 t hstep
      obtain ⟨ws, rfl, hws⟩ := ih p3 (m.store w) h
      refine ⟨w :: ws, rfl, ?_⟩
      intro x
      rw [hw x, hws x, List.mem_cons, or_assoc]
    · cases h

theorem all_isEmpty_not_mem {T P : Type} (pending : List (List (Store T P)))
    (h : pending.all List.isEmpty = true) (x : Store T P) :
    ¬ ∃ thread ∈ pending, x ∈ thread := by
  rintro ⟨thread, ht, hx⟩
  rw [List.all_eq_true] at h
  have := h thread ht
  cases thread with
  | nil => cases hx
  | cons a as => simp at this

theorem mem_device_threads {T P : Type} [Zero T] (cs : ConfSpace T P) (conf : Nat → Int) (B : Nat)
    (x : Store T P) :
    (∃ thread ∈ device_threads cs conf B, x ∈ thread) ↔
      ∃ t, t < B ∧ x ∈ device_stores cs conf B t := by
  simp [device_threads]

/-- The stores of the threads of a block, taken together, are the stores of the
host constructor. -/
theorem mem_device_threads_iff_host {T P : Type} [Zero T] (cs : ConfSpace T P) (conf : Nat → Int) (B : Nat)
    (hB : 0 < B) (x : Store T P) :
    (∃ thread ∈ device_threads cs conf B, x ∈ thread) ↔ x ∈ host_stores cs conf := by
  rw [mem_device_threads, mem_host_stores]
  constructor
  · rintro ⟨t, ht, hx⟩
    rw [mem_device_stores cs conf B t hB ht] at hx
    exact device_store_host cs conf B t x hx
  · intro hx
    obtain ⟨t, ht, hd⟩ := host_store_device cs conf B hB x hx
    exact ⟨t, ht, (mem_device_stores cs conf B t hB ht x).2 hd⟩

theorem set_get?_self {α : Type} (l : List α) (t : Nat) (a : α) (h : l.get? t = some a) :
    l.set t a = l := by
  induction l generalizing t with
  | nil => rfl
  | cons b l ih =>
    cases t with
    | zero =>
      simp at h
      simp [h]
    | succ t =>
      simp at h
      simp only [List.set_cons_succ, List.cons.injEq, true_and]
      exact ih t (by simpa using h)

theorem get?_append_length {α : Type} (l l2 : List α) (a : α) :
    (l ++ a :: l2).get? l.length = some a := by
  induction l with
  | nil => rfl
  | cons b l ih => simpa using ih

theorem set_append_length {α : Type} (l l2 : List α) (a x : α) :
    (l ++ a :: l2).set l.length x = l ++ x :: l2 := by
  induction l with
  | nil => rfl
  | cons b l ih => simp

theorem block_run_replicate {T P : Type} (thread : List (Store T P)) (t : Nat) (rest : List Nat)
    (pending : List (List (Store T P))) (m : Arrays T P)
    (h : pending.get? t = some thread) :
    block_run (List.replicate thread.length t ++ rest) pending m =
      block_run rest (pending.set t []) (m.run thread) := by
  induction thread generalizing pending m with
  | nil =>
    simp only [List.length_nil, List.replicate_zero, List.nil_append, run_nil]
    rw [set_get?_self pending t [] h]
  | cons w thread ih =>
    have hlt : t < pending.length := get?_some_lt h
    have e : block_run (List.replicate (w :: thread).length t ++ rest) pending m =
        block_run (List.replicate thread.length t ++ rest) (pending.set t thread) (m.store w) := by
      simp only [List.length_cons, List.replicate_succ, List.cons_append]
      rw [block_run]
      simp only [block_step, h]
    rw [e, ih (pending.set t thread) (m.store w) (by simp [List.getElem?_set, hlt])]
    rw [List.set_set, run_cons]

/-- The schedule by rank brings every thread to the barrier. -/
theorem block_run_rank_order {T P : Type} (threads done : List (List (Store T P))) (m : Arrays T P) :
    ∃ m2, block_run (rank_order_schedule done.length threads) (done ++ threads) m =
      some (done ++ threads.map (fun _ => []), m2) := by
  induction threads generalizing done m with
  | nil => exact ⟨m, by simp [rank_order_schedule, block_run]⟩
  | cons thread threads ih =>
    simp only [rank_order_schedule]
    rw [block_run_replicate thread done.length _ (done ++ thread :: threads) m
      (get?_append_length done threads thread)]
    have e : (done ++ thread :: threads).set done.length [] = (done ++ [[]]) ++ threads := by
      rw [set_append_length]
      simp
    rw [e]
    obtain ⟨m2, h2⟩ := ih (done ++ [[]]) (m.run thread)
    refine ⟨m2, ?_⟩
    have e2 : (done ++ [[]]).length = done.length + 1 := by simp
    rw [e2] at h2
    rw [h2]
    simp

/-- C5: for every block size of at least one thread and every valid assignment
vector, the cooperative construction, from the same contents of the arrays,
reaches the barrier with the same atom buffer, the same index offsets, the same
term table and the same table of internal energies as the sequential
construction: under every schedule that brings all threads to the barrier, and
there is such a schedule. -/
theorem C5_cooperative_equals_sequential {T P : Type} [Zero T] (cs : ConfSpace T P) (conf : Nat → Int)
    (B : Nat) (hB : 1 ≤ B) (hv : valid_conf cs conf) (shared : Arrays T P) :
    cooperative_construct cs conf B (rank_order_schedule 0 (device_threads cs conf B)) shared =
      some (Assignment.construct cs conf shared).arrays ∧
    ∀ (schedule : List Nat) (m : Arrays T P),
      cooperative_construct cs conf B schedule shared = some m →
        m = (Assignment.construct cs conf shared).arrays := by
  have key : ∀ (schedule : List Nat) (m : Arrays T P),
      cooperative_construct cs conf B schedule shared = some m →
        m = (Assignment.construct cs conf shared).arrays := by
    intro schedule m h
    unfold cooperative_construct at h
    split at h
    · rename_i pending m2 hrun
      split at h
      · rename_i hall
        simp only [Option.some.injEq] at h
        subst h
        obtain ⟨ws, rfl, hws⟩ := block_run_mem schedule _ pending shared m2 hrun
        simp only [Assignment.construct]
        apply run_eq_of_same_stores _ _ _ (host_stores_functional cs conf hv)
        intro w
        rw [← mem_device_threads_iff_host cs conf B hB w, hws w]
        constructor
        · exact fun hw => Or.inl hw
        · rintro (hw | hw)
          · exact hw
          · exact absurd hw (all_isEmpty_not_mem pending hall w)
      · cases h
    · cases h
  refine ⟨?_, key⟩
  obtain ⟨m2, h2⟩ := block_run_rank_order (device_threads cs conf B) [] shared
  have h3 : cooperative_construct cs conf B (rank_order_schedule 0 (device_threads cs conf B))
      shared = some m2 := by
    unfold cooperative_construct
    simp only [List.length_nil, List.nil_append] at h2
    rw [h2]
    simp
  rw [h3, key _ m2 h3]

theorem example_valid : valid_conf example_space example_conf := by
  intro p hp _
  have hp3 : p < 3 := hp
  have : p = 0 ∨ p = 1 ∨ p = 2 := by omega
  rcases this with rfl | rfl | rfl <;> decide

theorem C5_cooperative_equals_sequential_witness :
    (1 ≤ 2 ∧ valid_conf example_space example_conf) ∧
    cooperative_construct example_space example_conf 2
        (rank_order_schedule 0 (device_threads example_space example_conf 2)) example_fresh =
      some (Assignment.construct example_space example_conf example_fresh).arrays ∧
    (cooperative_construct example_space example_conf 2
        [1, 0, 0, 1, 0, 0, 1, 1, 0, 0, 0, 0, 0, 0, 0, 0, 0, 0, 0, 1, 0, 0] example_fresh).isSome
      = true ∧
    ∀ m, cooperative_construct example_space example_conf 2
        [1, 0, 0, 1, 0, 0, 1, 1, 0, 0, 0, 0, 0, 0, 0, 0, 0, 0, 0, 1, 0, 0] example_fresh = some m →
      m = (Assignment.construct example_space example_conf example_fresh).arrays :=
  ⟨⟨by decide, example_valid⟩,
    (C5_cooperative_equals_sequential example_space example_conf 2 (by decide) example_valid
      example_fresh).1,
    by decide,
    (C5_cooperative_equals_sequential example_space example_conf 2 (by decide) example_valid
      example_fresh).2 _⟩

theorem device_store_conf_energies_rank {T P : Type} [Zero T] (cs : ConfSpace T P) (conf : Nat → Int)
    (B t : Nat) (i : Int) (v : T) (h : DeviceStore cs conf B t (Store.conf_energies i v)) :
    t = 0 := by
  simp only [DeviceStore, DevicePosStore, reduceCtorEq, and_false, exists_false, false_or,
    or_false, exists_const, false_and] at h
  obtain ⟨p, _, _, h0, _⟩ := h
  exact h0

theorem device_store_atom_pairs_rank {T P : Type} [Zero T] (cs : ConfSpace T P) (conf : Nat → Int)
    (B t : Nat) (ht : t ≠ 0) (i : Int) (v : P)
    (h : DeviceStore cs conf B t (Store.atom_pairs i v)) :
    ∃ p q, q < p ∧ p < cs.num_pos ∧ i = cs.index_pos_pos p q := by
  simp only [DeviceStore, DevicePosStore, reduceCtorEq, and_false, exists_false, false_or,
    or_false, exists_const, false_and, ht, Store.atom_pairs.injEq] at h
  obtain ⟨p, hp, _, q, hq, _, _, hi, _⟩ := h
  exact ⟨p, q, hq, hp, hi⟩

theorem device_store_index_offsets {T P : Type} [Zero T] (cs : ConfSpace T P) (conf : Nat → Int)
    (B t p : Nat) (hp : p < cs.num_pos) :
    DeviceStore cs conf B t (Store.index_offsets (p : Int) (layout_offset cs p : Int)) :=
  Or.inr (Or.inr ⟨p, hp, Or.inl rfl⟩)

/-- C10, as amended: in the cooperative construction a thread of rank other than
0 leaves the table of internal energies, the static/static slot and the
static/position and position-internal slots of every position as they were;
the entries of the table of offsets are stored by every thread of the block,
each thread storing the same value, which is also what the table holds after
the stores of any single thread. -/
theorem C10_rank_zero_bookkeeping {T P : Type} [Zero T] (cs : ConfSpace T P) (conf : Nat → Int)
    (B t : Nat) (ht : t < B) (shared : Arrays T P) :
    (t ≠ 0 →
      (∀ k : Int, (shared.run (device_stores cs conf B t)).conf_energies k =
        shared.conf_energies k) ∧
      (shared.run (device_stores cs conf B t)).atom_pairs cs.index_static_static =
        shared.atom_pairs cs.index_static_static ∧
      (∀ p, p < cs.num_pos →
        (shared.run (device_stores cs conf B t)).atom_pairs (cs.index_static_pos p) =
          shared.atom_pairs (cs.index_static_pos p) ∧
        (shared.run (device_stores cs conf B t)).atom_pairs (cs.index_pos p) =
          shared.atom_pairs (cs.index_pos p))) ∧
    (∀ p, p < cs.num_pos →
      Store.index_offsets (p : Int)
          ((cs.static_atom_coords.length : Int) +
            Finset.sum (Finset.range p) (fun q => (cs.max_num_atoms q : Int)))
        ∈ device_stores cs conf B t ∧
      (shared.run (device_stores cs conf B t)).index_offsets p =
        (cs.static_atom_coords.length : Int) +
          Finset.sum (Finset.range p) (fun q => (cs.max_num_atoms q : Int))) := by
  have hB : 0 < B := by omega
  constructor
  · intro ht0
    have hpairs : ∀ k : Int, (∀ p q, q < p → p < cs.num_pos → k ≠ cs.index_pos_pos p q) →
        (shared.run (device_stores cs conf B t)).atom_pairs k = shared.atom_pairs k := by
      intro k hk
      refine run_frame _ shared (Loc.atom_pairs k) ?_
      intro w hw hl
      obtain ⟨v, rfl⟩ := (loc_atom_pairs_iff w _).1 hl
      rw [mem_device_stores cs conf B t hB ht] at hw
      obtain ⟨p, q, hq, hp, hi⟩ := device_store_atom_pairs_rank cs conf B t ht0 k v hw
      exact hk p q hq hp hi
    refine ⟨?_, ?_, ?_⟩
    · intro k
      refine run_frame _ shared (Loc.conf_energies k) ?_
      intro w hw hl
      obtain ⟨v, rfl⟩ := (loc_conf_energies_iff w _).1 hl
      rw [mem_device_stores cs conf B t hB ht] at hw
      exact ht0 (device_store_conf_energies_rank cs conf B t k v hw)
    · apply hpairs
      intro p q hq hp
      rw [index_static_static_eq, index_pos_pos_eq]
      omega
    · intro p hp
      constructor
      · apply hpairs
        intro p2 q2 hq2 hp2
        rw [index_static_pos_eq, index_pos_pos_eq]
        omega
      · apply hpairs
        intro p2 q2 hq2 hp2
        rw [index_pos_eq, index_pos_pos_eq]
        omega
  · intro p hp
    rw [← layout_offset_eq_sum]
    have hmem : Store.index_offsets (p : Int) (layout_offset cs p : Int)
        ∈ device_stores cs conf B t :=
      (mem_device_stores cs conf B t hB ht _).2 (device_store_index_offsets cs conf B t p hp)
    refine ⟨hmem, ?_⟩
    refine run_holds _ shared _ hmem ?_
    intro w2 hw2 hl
    obtain ⟨v2, rfl⟩ := (loc_index_offsets_iff w2 _).1 hl
    have h2 := device_store_host cs conf B t _ ((mem_device_stores cs conf B t hB ht _).1 hw2)
    rw [host_store_index_offsets_iff] at h2
    obtain ⟨q, _, hq1, hq2⟩ := h2
    have : q = p := by omega
    subst this
    rw [hq2]

theorem C10_rank_zero_bookkeeping_witness :
    ((1 : Nat) < 2 ∧ (1 : Nat) ≠ 0 ∧ 2 < example_space.num_pos) ∧
    (example_fresh.run (device_stores example_space example_conf 2 1)).atom_pairs
        (example_space.index_pos ((2 : Nat) : Int)) =
      example_fresh.atom_pairs (example_space.index_pos ((2 : Nat) : Int)) ∧
    (example_fresh.run (device_stores example_space example_conf 2 1)).index_offsets
        ((2 : Nat) : Int) =
      (example_space.static_atom_coords.length : Int) +
        Finset.sum (Finset.range 2) (fun q => (example_space.max_num_atoms q : Int)) :=
  ⟨by decide,
    (((C10_rank_zero_bookkeeping example_space example_conf 2 1 (by decide) example_fresh).1
      (by decide)).2.2 2 (by decide)).2,
    ((C10_rank_zero_bookkeeping example_space example_conf 2 1 (by decide) example_fresh).2 2
      (by decide)).2⟩

/-- C10, as stated, fails: the thread of rank 1 of a block of two threads stores
into the table of offsets. -/
theorem C10_counterexample :
    ¬ (∀ (cs : ConfSpace Int Int) (conf : Nat → Int) (B t : Nat) (shared : Arrays Int Int),
      t < B → t ≠ 0 →
      ∀ p : Int, (shared.run (device_stores cs conf B t)).index_offsets p =
        shared.index_offsets p) := by
  intro h
  exact absurd (h example_space example_conf 2 1 example_fresh (by decide) (by decide) 0)
    (by decide)

/-! ## The flattening function and the slot layout -/

theorem host_atom_pairs_length_eq (n : Nat) :
    host_atom_pairs_length n = ((1 + 2 * n + triangle n : Nat) : Int) := by
  unfold host_atom_pairs_length
  rw [tdiv_triangle]
  push_cast
  rfl

theorem triangle_decomp (n r : Nat) (h : r < triangle n) :
    ∃ i j, j < i ∧ i < n ∧ r = triangle i + j := by
  induction n with
  | zero => simp [triangle] at h
  | succ n ih =>
    simp only [triangle] at h
    by_cases hr : r < triangle n
    · obtain ⟨i, j, h1, h2, h3⟩ := ih hr
      exact ⟨i, j, h1, by omega, h3⟩
    · exact ⟨n, r - triangle n, by omega, by omega, by omega⟩

theorem slot_eq {T P : Type} (cs : ConfSpace T P) (t : Term) :
    cs.slot t = match t with
      | .static_static => ((0 : Nat) : Int)
      | .static_pos p => ((1 + p : Nat) : Int)
      | .pos p => ((1 + cs.num_pos + p : Nat) : Int)
      | .pos_pos p q => ((1 + 2 * cs.num_pos + triangle p + q : Nat) : Int) := by
  cases t with
  | static_static => rfl
  | static_pos p => exact index_static_pos_eq cs p
  | pos p => exact index_pos_eq cs p
  | pos_pos p q => exact index_pos_pos_eq cs p q

/-- C6: for two distinct positions of the space, the flattening function gives
the same slot for both orders of the pair, the triangular slot of the larger
position followed by the smaller one, which is the slot construction stores
the descriptor of the pair into; so get_atom_pairs gives the same table entry
for both orders. -/
theorem C6_index_symmetric {T P : Type} [Zero T] (cs : ConfSpace T P) (i j : Int)
    (hi0 : 0 ≤ i) (hi : i < cs.num_pos) (hj0 : 0 ≤ j) (hj : j < cs.num_pos) (hij : i ≠ j) :
    cs.index i j = cs.index j i ∧
    cs.index i j = cs.index_pos_pos (max i j) (min i j) ∧
    (∀ a : Assignment T P, a.conf_space = cs → a.get_atom_pairs i j = a.get_atom_pairs j i) ∧
    (∀ (conf : Nat → Int) (fresh : Arrays T P),
      conf i.toNat ≥ 0 → conf j.toNat ≥ 0 →
      cs.index i j ∈ atom_pairs_written (host_stores cs conf) ∧
      (Assignment.construct cs conf fresh).get_atom_pairs i j =
        cs.get_pos_pos_pairs (max i j)
          (cs.get_conf (max i j).toNat (conf (max i j).toNat)).frag_index (min i j)
          (cs.get_conf (min i j).toNat (conf (min i j).toNat)).frag_index) := by
  have hsi : cs.is_static i = false := by
    simp only [ConfSpace.is_static, Bool.or_eq_false_iff, decide_eq_false_iff_not]
    omega
  have hsj : cs.is_static j = false := by
    simp only [ConfSpace.is_static, Bool.or_eq_false_iff, decide_eq_false_iff_not]
    omega
  have h1 : cs.index i j = cs.index_pos_pos (max i j) (min i j) := by
    unfold ConfSpace.index
    simp only [hsi, hsj, Bool.false_eq_true, if_false, hij]
    by_cases hlt : i > j
    · simp only [hlt, if_true]
      rw [max_eq_left (le_of_lt hlt), min_eq_right (le_of_lt hlt)]
    · simp only [hlt, if_false]
      have hle : i ≤ j := by omega
      rw [max_eq_right hle, min_eq_left hle]
  have h2 : cs.index j i = cs.index_pos_pos (max i j) (min i j) := by
    unfold ConfSpace.index
    simp only [hsi, hsj, Bool.false_eq_true, if_false, Ne.symm hij]
    by_cases hlt : j > i
    · simp only [hlt, if_true]
      rw [max_eq_right (le_of_lt hlt), min_eq_left (le_of_lt hlt)]
    · simp only [hlt, if_false]
      have hle : j ≤ i := by omega
      rw [max_eq_left hle, min_eq_right hle]
  refine ⟨by rw [h1, h2], h1, ?_, ?_⟩
  · intro a ha
    simp only [Assignment.get_atom_pairs, ha, h1, h2]
  · intro conf fresh hci hcj
    have hmax : ((max i j).toNat : Int) = max i j := Int.toNat_of_nonneg (le_max_of_le_left hi0)
    have hmin : ((min i j).toNat : Int) = min i j := Int.toNat_of_nonneg (le_min hi0 hj0)
    have hlt : (min i j).toNat < (max i j).toNat := by
      have : min i j < max i j := by
        rcases lt_or_gt_of_ne hij with h | h
        · rw [min_eq_left (le_of_lt h), max_eq_right (le_of_lt h)]; exact h
        · rw [min_eq_right (le_of_lt h), max_eq_left (le_of_lt h)]; exact h
      omega
    have hn : (max i j).toNat < cs.num_pos := by
      have : max i j < cs.num_pos := max_lt hi hj
      omega
    have hcmax : conf (max i j).toNat ≥ 0 := by
      rcases le_total i j with h | h
      · rw [max_eq_right h]; exact hcj
      · rw [max_eq_left h]; exact hci
    have hcmin : conf (min i j).toNat ≥ 0 := by
      rcases le_total i j with h | h
      · rw [min_eq_left h]; exact hci
      · rw [min_eq_right h]; exact hcj
    have hC2 := host_pair_slot_kept cs conf fresh (max i j).toNat (min i j).toNat hlt hn
      hcmax hcmin
    rw [hmax, hmin] at hC2
    constructor
    · rw [h1, host_atom_pairs_written]
      exact Or.inr (Or.inr ⟨(max i j).toNat, (min i j).toNat, hlt, hn, hcmax, hcmin,
        by rw [hmax, hmin]⟩)
    · simp only [Assignment.get_atom_pairs]
      have : (Assignment.construct cs conf fresh).conf_space = cs := rfl
      rw [this, h1]
      exact hC2

theorem C6_index_symmetric_witness :
    ((0 : Int) ≤ 0 ∧ (0 : Int) < example_space.num_pos ∧ (0 : Int) ≤ 2 ∧
      (2 : Int) < example_space.num_pos ∧ (0 : Int) ≠ 2) ∧
    example_space.index 0 2 = example_space.index 2 0 ∧
    example_space.index 0 2 = example_space.index_pos_pos (max 0 2) (min 0 2) :=
  ⟨by decide,
    (C6_index_symmetric example_space 0 2 (by decide) (by decide) (by decide) (by decide)
      (by decide)).1,
    (C6_index_symmetric example_space 0 2 (by decide) (by decide) (by decide) (by decide)
      (by decide)).2.1⟩

/-- C7: the slot layout maps the terms of a space of num_pos positions
one-to-one onto the indices from 0 up to, and not including,
1 + 2*num_pos + num_pos*(num_pos-1)/2: distinct terms have distinct slots,
every slot of a term is in the range, and every index of the range is the slot
of a term. Every slot sequential construction stores into is within the length
of the table the host constructor allocates, which is the size given by
sizeof_atom_pairs divided by the size of a pointer. With one position the table
has three slots and there is no pair term. -/
theorem C7_slot_layout {T P : Type} [Zero T] (cs : ConfSpace T P) :
    (∀ t1 t2 : Term, t1.in_space cs.num_pos → t2.in_space cs.num_pos →
      cs.slot t1 = cs.slot t2 → t1 = t2) ∧
    (∀ t : Term, t.in_space cs.num_pos →
      0 ≤ cs.slot t ∧ cs.slot t < host_atom_pairs_length cs.num_pos) ∧
    (∀ k : Int, 0 ≤ k → k < host_atom_pairs_length cs.num_pos →
      ∃ t : Term, t.in_space cs.num_pos ∧ cs.slot t = k) ∧
    (∀ (conf : Nat → Int) (k : Int), k ∈ atom_pairs_written (host_stores cs conf) →
      0 ≤ k ∧ k < host_atom_pairs_length cs.num_pos) ∧
    (∀ size_ptr : Int, 0 < size_ptr →
      Int.tdiv (sizeof_atom_pairs size_ptr cs.num_pos) size_ptr =
        host_atom_pairs_length cs.num_pos) ∧
    (cs.num_pos = 1 → host_atom_pairs_length cs.num_pos = 3 ∧
      ∀ i j : Nat, ¬ (Term.pos_pos i j).in_space cs.num_pos) := by
  have hrange : ∀ t : Term, t.in_space cs.num_pos →
      0 ≤ cs.slot t ∧ cs.slot t < host_atom_pairs_length cs.num_pos := by
    intro t ht
    rw [slot_eq, host_atom_pairs_length_eq]
    cases t with
    | static_static => simp only []; omega
    | static_pos p => simp only [Term.in_space] at ht ⊢; omega
    | pos p => simp only [Term.in_space] at ht ⊢; omega
    | pos_pos p q =>
      simp only [Term.in_space] at ht ⊢
      have h1 := triangle_lt ht.1
      have h2 := triangle_mono (Nat.succ_le_of_lt ht.2)
      simp only [Nat.succ_eq_add_one, triangle] at h2
      omega
  refine ⟨?_, hrange, ?_, ?_, ?_, ?_⟩
  · intro t1 t2 h1 h2 h
    rw [slot_eq, slot_eq] at h
    cases t1 <;> cases t2 <;> simp only [Term.in_space] at h1 h2 h <;>
      first
        | rfl
        | (exfalso; omega)
        | (congr 1; omega)
        | skip
    rename_i p q p2 q2
    have h3 : triangle p + q = triangle p2 + q2 := by omega
    have hpp : p = p2 := by
      rcases Nat.lt_trichotomy p p2 with hlt | heq | hgt
      · have := triangle_lt hlt
        have := h1.1
        omega
      · exact heq
      · have := triangle_lt hgt
        have := h2.1
        omega
    subst hpp
    have hqq : q = q2 := by omega
    subst hqq
    rfl
  · intro k hk0 hk
    rw [host_atom_pairs_length_eq] at hk
    obtain ⟨n, rfl⟩ := Int.eq_ofNat_of_zero_le hk0
    by_cases h0 : n = 0
    · exact ⟨Term.static_static, trivial, by rw [slot_eq]; simp only []; omega⟩
    by_cases h1 : n ≤ cs.num_pos
    · exact ⟨Term.static_pos (n - 1), by simp only [Term.in_space]; omega,
        by rw [slot_eq]; simp only []; omega⟩
    by_cases h2 : n ≤ 2 * cs.num_pos
    · exact ⟨Term.pos (n - 1 - cs.num_pos), by simp only [Term.in_space]; omega,
        by rw [slot_eq]; simp only []; omega⟩
    obtain ⟨i, j, hji, hi, hr⟩ := triangle_decomp cs.num_pos (n - (1 + 2 * cs.num_pos))
      (by omega)
    exact ⟨Term.pos_pos i j, ⟨hji, hi⟩, by rw [slot_eq]; simp only []; omega⟩
  · intro conf k hk
    rw [host_atom_pairs_written] at hk
    rcases hk with h | ⟨p, hp, _, (h | h)⟩ | ⟨i, j, hji, hi, _, _, h⟩
    · rw [h]; exact hrange Term.static_static trivial
    · rw [h]; exact hrange (Term.static_pos p) hp
    · rw [h]; exact hrange (Term.pos p) hp
    · rw [h]; exact hrange (Term.pos_pos i j) ⟨hji, hi⟩
  · intro size_ptr hs
    unfold sizeof_atom_pairs host_atom_pairs_length
    exact Int.mul_tdiv_cancel _ (by omega)
  · intro h1
    rw [h1]
    refine ⟨by decide, ?_⟩
    intro i j hij
    simp only [Term.in_space] at hij
    omega

theorem C7_slot_layout_witness :
    ((Term.pos_pos 2 1).in_space example_space.num_pos ∧ (0 : Int) < 8) ∧
    (0 ≤ example_space.slot (Term.pos_pos 2 1) ∧
      example_space.slot (Term.pos_pos 2 1) < host_atom_pairs_length example_space.num_pos) ∧
    Int.tdiv (sizeof_atom_pairs 8 example_space.num_pos) 8 =
      host_atom_pairs_length example_space.num_pos :=
  ⟨⟨by decide, by decide⟩,
    (C7_slot_layout example_space).2.1 (Term.pos_pos 2 1) (by decide),
    (C7_slot_layout example_space).2.2.2.2.1 8 (by decide)⟩

/-! ## The static block and the dependence on the fresh arrays -/

/-- The stores of the host constructor, split after the copy of the static
atoms: what comes after are the stores of the positions. -/
theorem host_stores_prologue_split {T P : Type} [Zero T] (cs : ConfSpace T P) (conf : Nat → Int) (n : Nat) :
    ∃ post, (host_pos_loop cs conf n).stores = (host_prologue cs).stores ++ post ∧
      (∀ w, w ∈ post → ∃ q, q < n ∧ HostPosStore cs conf q w) := by
  induction n with
  | zero => exact ⟨[], by simp [host_pos_loop], by intro w hw; cases hw⟩
  | succ n ih =>
    obtain ⟨post, h1, h2⟩ := ih
    refine ⟨post ++ (host_pos_body cs conf n ⟨(host_pos_loop cs conf n).offset, []⟩).stores,
      ?_, ?_⟩
    · simp only [host_pos_loop]
      rw [host_pos_body_stores, h1]
      simp [List.append_assoc]
    · intro w hw
      rcases List.mem_append.1 hw with hw | hw
      · obtain ⟨q, hq1, hq2⟩ := h2 w hw
        exact ⟨q, by omega, hq2⟩
      · rw [mem_host_pos_body cs conf n ⟨(host_pos_loop cs conf n).offset, []⟩
          (host_pos_loop_offset cs conf n)] at hw
        simp only [List.not_mem_nil, false_or] at hw
        exact ⟨n, by omega, hw⟩

/-- After the host constructor, the slots of the static block hold the static
atoms. -/
theorem host_atoms_static {T P : Type} [Zero T] (cs : ConfSpace T P) (conf : Nat → Int)
    (fresh : Arrays T P) (a : Nat) (v : Real3 T) (h : cs.static_atom_coords.get? a = some v) :
    (fresh.run (host_stores cs conf)).atoms a = v := by
  obtain ⟨post, h1, h2⟩ := host_stores_prologue_split cs conf cs.num_pos
  have ha := get?_some_lt h
  unfold host_stores
  rw [h1, run_append]
  have hpost : ((fresh.run (host_prologue cs).stores).run post).same_at
      (fresh.run (host_prologue cs).stores) (Loc.atoms a) := by
    apply run_frame
    intro w hw hl
    obtain ⟨q, _, hq⟩ := h2 w hw
    obtain ⟨v2, rfl⟩ := (loc_atoms_iff w _).1 hl
    have := host_pos_store_atoms_ge cs conf q _ v2 hq
    have := layout_offset_static_le cs q
    omega
  have hmem : ∀ w : Store T P, w ∈ (host_prologue cs).stores ↔
      (∃ a v, cs.static_atom_coords.get? a = some v ∧ w = Store.atoms (a : Int) v) ∨
      w = Store.atom_pairs cs.index_static_static cs.get_static_static_pair := by
    intro w
    simp [host_prologue, mem_copy_from]
  have hpro : (fresh.run (host_prologue cs).stores).holds (Store.atoms (a : Int) v) := by
    apply run_holds _ _ _ ((hmem _).2 (Or.inl ⟨a, v, h, rfl⟩))
    intro w2 hw2 hl
    obtain ⟨v2, rfl⟩ := (loc_atoms_iff w2 _).1 hl
    rcases (hmem _).1 hw2 with ⟨a2, v3, h3, h4⟩ | h4
    · simp only [Store.atoms.injEq] at h4
      have : a = a2 := by omega
      subst this
      rw [h] at h3
      rw [h4.2, Option.some.inj h3]
    · cases h4
  exact Eq.trans hpost hpro

/-- C8: after construction, for every assignment vector, get_static_index(a) is
a and the buffer holds static atom a there, for every static atom index a below
the number of static atoms; and no store into the buffer made by an iteration of
the position loop, atom copy or zero padding, targets a slot of the static
block. -/
theorem C8_static_block {T P : Type} [Zero T] (cs : ConfSpace T P) (conf : Nat → Int)
    (fresh : Arrays T P) :
    (∀ (a : Nat) (v : Real3 T), cs.static_atom_coords.get? a = some v →
      (Assignment.construct cs conf fresh).get_static_index a = a ∧
      (Assignment.construct cs conf fresh).arrays.atoms
        ((Assignment.construct cs conf fresh).get_static_index a) = v) ∧
    (∀ (p : Nat) (i : Int) (v : Real3 T), p < cs.num_pos →
      Store.atoms i v ∈
        (host_pos_body cs conf p ⟨(host_pos_loop cs conf p).offset, []⟩).stores →
      (cs.static_atom_coords.length : Int) ≤ i) := by
  constructor
  · intro a v h
    exact ⟨rfl, host_atoms_static cs conf fresh a v h⟩
  · intro p i v _ h
    rw [mem_host_pos_body cs conf p ⟨(host_pos_loop cs conf p).offset, []⟩
      (host_pos_loop_offset cs conf p)] at h
    simp only [List.not_mem_nil, false_or] at h
    have := host_pos_store_atoms_ge cs conf p i v h
    have := layout_offset_static_le cs p
    omega

theorem C8_static_block_witness :
    (example_space.static_atom_coords.get? 1 = some (example_atom 20)) ∧
    (Assignment.construct example_space example_conf example_fresh).get_static_index
        ((1 : Nat) : Int) = ((1 : Nat) : Int) ∧
    (Assignment.construct example_space example_conf example_fresh).arrays.atoms
      ((Assignment.construct example_space example_conf example_fresh).get_static_index
        ((1 : Nat) : Int)) = example_atom 20 :=
  ⟨by decide, (C8_static_block example_space example_conf example_fresh).1 1 (example_atom 20)
    (by decide)⟩

theorem layout_find {T P : Type} (cs : ConfSpace T P) (n i : Nat) (h0 : cs.static_atom_coords.length ≤ i)
    (h : i < layout_offset cs n) :
    ∃ p, p < n ∧ layout_offset cs p ≤ i ∧ i < layout_offset cs (p + 1) := by
  induction n with
  | zero => simp only [layout_offset] at h; omega
  | succ n ih =>
    by_cases hn : i < layout_offset cs n
    · obtain ⟨p, hp, h1, h2⟩ := ih hn
      exact ⟨p, by omega, h1, h2⟩
    · exact ⟨n, by omega, by omega, h⟩

/-- The host constructor stores into every slot of the layout of the buffer. -/
theorem host_atoms_covered {T P : Type} [Zero T] (cs : ConfSpace T P) (conf : Nat → Int) (i : Int)
    (h0 : 0 ≤ i) (h : i < (layout_offset cs cs.num_pos : Int)) :
    ∃ v, Store.atoms i v ∈ host_stores cs conf := by
  obtain ⟨n, rfl⟩ := Int.eq_ofNat_of_zero_le h0
  simp only [mem_host_stores, host_store_atoms_iff]
  by_cases hs : n < cs.static_atom_coords.length
  · refine ⟨cs.static_atom_coords.get ⟨n, hs⟩, Or.inl ⟨n, ?_, rfl⟩⟩
    exact List.get?_eq_get hs
  · obtain ⟨p, hp, h1, h2⟩ := layout_find cs cs.num_pos n (by omega) (by omega)
    simp only [layout_offset] at h2
    by_cases hc : conf p ≥ 0
    · by_cases hk : n - layout_offset cs p < (selected cs conf p).atom_coords.length
      · refine ⟨(selected cs conf p).atom_coords.get ⟨n - layout_offset cs p, hk⟩,
          Or.inr ⟨p, hp, ?_⟩⟩
        rw [host_pos_store_atoms_iff]
        exact Or.inl ⟨hc, Or.inl ⟨n - layout_offset cs p, List.get?_eq_get hk, by omega⟩⟩
      · refine ⟨0, Or.inr ⟨p, hp, ?_⟩⟩
        rw [host_pos_store_atoms_iff]
        exact Or.inl ⟨hc, Or.inr ⟨n - layout_offset cs p -
          (selected cs conf p).atom_coords.length, by omega, by omega, rfl⟩⟩
    · refine ⟨0, Or.inr ⟨p, hp, ?_⟩⟩
      rw [host_pos_store_atoms_iff]
      exact Or.inr ⟨hc, n - layout_offset cs p, by omega, by omega, rfl⟩

/-- C9, as amended: two sequential constructions from the same descriptor and
the same assignment vector, whatever the freshly allocated arrays hold, give the
same atom buffer on every slot of the layout, the same index offsets, the same
entry in every slot of the term table that construction stores into (the
static/static slot, the slots of the assigned positions and of the pairs of
assigned positions) and the same internal energy for every assigned position;
a slot of the term table that construction does not store into, and the internal
energy entry of an unassigned position, hold what the freshly allocated table
held. -/
theorem C9_deterministic_outputs {T P : Type} [Zero T] (cs : ConfSpace T P) (conf : Nat → Int)
    (fresh fresh2 : Arrays T P) :
    (∀ i : Int, 0 ≤ i →
      i < (cs.static_atom_coords.length : Int) +
        Finset.sum (Finset.range cs.num_pos) (fun q => (cs.max_num_atoms q : Int)) →
      (Assignment.construct cs conf fresh).arrays.atoms i =
        (Assignment.construct cs conf fresh2).arrays.atoms i) ∧
    (∀ p, p < cs.num_pos → ∀ a : Int,
      (Assignment.construct cs conf fresh).get_index p a =
        (Assignment.construct cs conf fresh2).get_index p a) ∧
    (∀ k : Int, k ∈ atom_pairs_written (host_stores cs conf) →
      (Assignment.construct cs conf fresh).arrays.atom_pairs k =
        (Assignment.construct cs conf fresh2).arrays.atom_pairs k) ∧
    (∀ i j : Int, cs.index i j ∈ atom_pairs_written (host_stores cs conf) →
      (Assignment.construct cs conf fresh).get_atom_pairs i j =
        (Assignment.construct cs conf fresh2).get_atom_pairs i j) ∧
    (∀ p, p < cs.num_pos → conf p ≥ 0 →
      (Assignment.construct cs conf fresh).get_conf_energy p =
        (Assignment.construct cs conf fresh2).get_conf_energy p) ∧
    (∀ k : Int, k ∉ atom_pairs_written (host_stores cs conf) →
      (Assignment.construct cs conf fresh).arrays.atom_pairs k = fresh.atom_pairs k) ∧
    (∀ p, p < cs.num_pos → conf p < 0 →
      (Assignment.construct cs conf fresh).get_conf_energy p = fresh.conf_energies p) := by
  have hpairs : ∀ k : Int, k ∈ atom_pairs_written (host_stores cs conf) →
      (Assignment.construct cs conf fresh).arrays.atom_pairs k =
        (Assignment.construct cs conf fresh2).arrays.atom_pairs k := by
    intro k hk
    obtain ⟨v, hv⟩ := (mem_atom_pairs_written _ _).1 hk
    exact run_same_at_of_written _ fresh fresh2 (Loc.atom_pairs k) ⟨_, hv, rfl⟩
  refine ⟨?_, ?_, hpairs, ?_, ?_, ?_, ?_⟩
  · intro i h0 h
    rw [← layout_offset_eq_sum] at h
    obtain ⟨v, hv⟩ := host_atoms_covered cs conf i h0 h
    exact run_same_at_of_written _ fresh fresh2 (Loc.atoms i) ⟨_, hv, rfl⟩
  · intro p hp a
    simp only [Assignment.get_index, Assignment.construct]
    rw [host_index_offsets cs conf fresh p hp, host_index_offsets cs conf fresh2 p hp]
  · intro i j h
    exact hpairs _ h
  · intro p hp hc
    simp only [Assignment.get_conf_energy, Assignment.construct]
    rw [host_conf_energy_kept cs conf fresh p hp hc, host_conf_energy_kept cs conf fresh2 p hp hc]
  · intro k hk
    exact host_atom_pairs_frame cs conf fresh k hk
  · intro p hp hc
    simp only [Assignment.get_conf_energy, Assignment.construct]
    refine run_frame _ fresh (Loc.conf_energies p) ?_
    intro w hw hl
    obtain ⟨v, rfl⟩ := (loc_conf_energies_iff w _).1 hl
    rw [mem_host_stores, host_store_conf_energies_iff] at hw
    obtain ⟨q, _, hcq, hq, _⟩ := hw
    have : q = p := by omega
    subst this
    omega

theorem C9_deterministic_outputs_witness :
    ((0 : Int) ≤ 5 ∧ 1 < example_space.num_pos ∧ example_conf 1 < 0) ∧
    (Assignment.construct example_space example_conf example_fresh).arrays.atoms 5 =
      (Assignment.construct example_space example_conf example_fresh2).arrays.atoms 5 ∧
    (Assignment.construct example_space example_conf example_fresh).get_conf_energy
        ((1 : Nat) : Int) = example_fresh.conf_energies ((1 : Nat) : Int) :=
  ⟨by decide,
    (C9_deterministic_outputs example_space example_conf example_fresh example_fresh2).1 5
      (by decide) (by decide),
    (C9_deterministic_outputs example_space example_conf example_fresh
      example_fresh2).2.2.2.2.2.2 1 (by decide) (by decide)⟩

/-- C9, as stated, fails: the entry get_atom_pairs gives for the internal term
of an unassigned position is what the freshly allocated table held. -/
theorem C9_counterexample :
    ¬ (∀ (cs : ConfSpace Int Int) (conf : Nat → Int) (fresh fresh2 : Arrays Int Int)
      (i j : Int),
      (Assignment.construct cs conf fresh).get_atom_pairs i j =
        (Assignment.construct cs conf fresh2).get_atom_pairs i j) := by
  intro h
  exact absurd (h example_space example_conf example_fresh example_fresh2 1 1) (by decide)

/-! ## Vector arithmetic -/

theorem real3_sub_eq {T : Type} [Sub T] (a b : Real3 T) :
    a - b = ⟨a.x - b.x, a.y - b.y, a.z - b.z⟩ := rfl

theorem real3_neg_eq {T : Type} [Neg T] (v : Real3 T) : -v = ⟨-v.x, -v.y, -v.z⟩ := rfl

theorem real3_zero_eq {T : Type} [Zero T] : (0 : Real3 T) = ⟨0, 0, 0⟩ := rfl

/-- C15: for all vectors a, b, v with components in a commutative ring,
distance_sq(a, b) is len_sq(a - b), len_sq(v) is dot(v, v), distance_sq is
symmetric in its arguments, and distance_sq(a, a) is 0. -/
theorem C15_distance_sq {T : Type} [CommRing T] (a b v : Real3 T) :
    distance_sq a b = len_sq (a - b) ∧
    len_sq v = dot v v ∧
    distance_sq a b = distance_sq b a ∧
    distance_sq a a = 0 := by
  refine ⟨rfl, rfl, ?_, ?_⟩
  · simp only [distance_sq]
    ring
  · simp only [distance_sq]
    ring

/-- C16: for all vectors a, b with components in a commutative ring, cross(a, b)
is orthogonal to a and to b, cross(a, b) is the negation of cross(b, a) by the
unary minus operator, and cross(a, a) is the zero vector. -/
theorem C16_cross {T : Type} [CommRing T] (a b : Real3 T) :
    dot (cross a b) a = 0 ∧
    dot (cross a b) b = 0 ∧
    cross a b = -cross b a ∧
    cross a a = 0 := by
  refine ⟨?_, ?_, ?_, ?_⟩
  · simp only [dot, cross]
    ring
  · simp only [dot, cross]
    ring
  · rw [real3_neg_eq]
    simp only [cross, Real3.mk.injEq]
    refine ⟨by ring, by ring, by ring⟩
  · rw [real3_zero_eq]
    simp only [cross, Real3.mk.injEq]
    refine ⟨by ring, by ring, by ring⟩

/-- With a square root of the squared length that is not zero, the normalized
vector has squared length 1. -/
theorem normalize_len_sq {K : Type} [Field K] (sqrt : K → K) (v : Real3 K)
    (hs : sqrt (len_sq v) * sqrt (len_sq v) = len_sq v) (h0 : sqrt (len_sq v) ≠ 0) :
    len_sq (normalize sqrt v) = 1 := by
  simp only [normalize, len]
  have e : len_sq (⟨v.x * (1 / sqrt (len_sq v)), v.y * (1 / sqrt (len_sq v)),
      v.z * (1 / sqrt (len_sq v))⟩ : Real3 K) =
      len_sq v * (1 / (sqrt (len_sq v) * sqrt (len_sq v))) := by
    simp only [len_sq]
    field_simp
  rw [e, hs]
  have : len_sq v ≠ 0 := by
    rw [← hs]
    exact mul_ne_zero h0 h0
  field_simp

/-- C11: normalize multiplies each of the three components by the one
reciprocal 1/len(v); over the reals, for every v with len_sq(v) other than 0,
the normalized vector has len_sq equal to 1 and is the input multiplied by a
positive scalar. -/
theorem C11_normalize (v : Real3 Real) :
    normalize Real.sqrt v =
      ⟨v.x * (1 / len Real.sqrt v), v.y * (1 / len Real.sqrt v), v.z * (1 / len Real.sqrt v)⟩ ∧
    (len_sq v ≠ 0 →
      len_sq (normalize Real.sqrt v) = 1 ∧
      ∃ c : Real, 0 < c ∧ normalize Real.sqrt v = ⟨c * v.x, c * v.y, c * v.z⟩) := by
  refine ⟨rfl, ?_⟩
  intro h
  have hnn : 0 ≤ len_sq v :=
    add_nonneg (add_nonneg (mul_self_nonneg v.x) (mul_self_nonneg v.y)) (mul_self_nonneg v.z)
  have hpos : 0 < len_sq v := lt_of_le_of_ne hnn (Ne.symm h)
  have hsq : Real.sqrt (len_sq v) * Real.sqrt (len_sq v) = len_sq v := Real.mul_self_sqrt hnn
  have hspos : 0 < Real.sqrt (len_sq v) := Real.sqrt_pos.2 hpos
  refine ⟨normalize_len_sq Real.sqrt v hsq (ne_of_gt hspos), 1 / Real.sqrt (len_sq v), ?_, ?_⟩
  · exact one_div_pos.2 hspos
  · simp only [normalize, len, Real3.mk.injEq]
    refine ⟨by ring, by ring, by ring⟩

theorem C11_normalize_witness :
    len_sq example_vector ≠ 0 ∧ len_sq (normalize Real.sqrt example_vector) = 1 :=
  ⟨by norm_num [len_sq, example_vector],
    ((C11_normalize example_vector).2 (by norm_num [len_sq, example_vector])).1⟩

/-- A run of normalize on rationals, with 5 for the square root of 25. -/
theorem normalize_rational :
    normalize (fun _ => (5 : Rat)) ⟨3, 4, 0⟩ = ⟨3 / 5, 4 / 5, 0⟩ := by
  simp only [normalize, len, Real3.mk.injEq]
  norm_num

/-! ## The loops over the earlier positions -/

theorem device_pair_visits_ge (B posi1 fuel start q : Nat)
    (h : q ∈ device_pair_visits B posi1 fuel start) : start ≤ q ∧ q < posi1 := by
  induction fuel generalizing start with
  | zero => cases h
  | succ f ih =>
    simp only [device_pair_visits] at h
    split at h
    · rename_i hlt
      rcases List.mem_cons.1 h with h1 | h1
      · subst h1; exact ⟨le_refl _, hlt⟩
      · have := ih (start + B) h1
        omega
    · cases h

theorem mem_device_pair_visits (B : Nat) (hB : 0 < B) (posi1 fuel start : Nat)
    (h : posi1 ≤ start + fuel) (q : Nat) :
    q ∈ device_pair_visits B posi1 fuel start ↔
      q < posi1 ∧ start ≤ q ∧ q % B = start % B := by
  induction fuel generalizing start with
  | zero =>
    simp only [device_pair_visits, List.not_mem_nil, false_iff, not_and]
    intro h1 h2
    omega
  | succ f ih =>
    simp only [device_pair_visits]
    split
    · rename_i hlt
      rw [List.mem_cons, ih (start + B) (by omega)]
      constructor
      · rintro (h1 | ⟨h1, h2, h3⟩)
        · subst h1; exact ⟨hlt, le_refl _, rfl⟩
        · exact ⟨h1, by omega, by rw [h3]; simp⟩
      · rintro ⟨h1, h2, h3⟩
        by_cases hq : q = start
        · exact Or.inl hq
        · right
          refine ⟨h1, ?_, by rw [h3]; simp⟩
          by_contra hcon
          have h5 : (q - start) % B = 0 := Nat.sub_mod_eq_zero_of_mod_eq h3
          have h6 : q - start < B := by omega
          rw [Nat.mod_eq_of_lt h6] at h5
          omega
    · rename_i hge
      simp only [List.not_mem_nil, false_iff, not_and]
      intro h1 h2
      omega

theorem device_pair_visits_nodup (B : Nat) (hB : 0 < B) (posi1 fuel start : Nat) :
    (device_pair_visits B posi1 fuel start).Nodup := by
  induction fuel generalizing start with
  | zero => exact List.nodup_nil
  | succ f ih =>
    simp only [device_pair_visits]
    split
    · refine List.nodup_cons.2 ⟨?_, ih (start + B)⟩
      intro hmem
      have := device_pair_visits_ge B posi1 f (start + B) start hmem
      omega
    · exact List.nodup_nil

/-- The strided loop stops by itself: iterations beyond the distance to the
bound visit nothing. -/
theorem device_pair_visits_fuel (B : Nat) (hB : 0 < B) (posi1 fuel extra start : Nat)
    (h : posi1 ≤ start + fuel) :
    device_pair_visits B posi1 (fuel + extra) start = device_pair_visits B posi1 fuel start := by
  induction fuel generalizing start with
  | zero =>
    cases extra with
    | zero => rfl
    | succ e =>
      have : ¬ start < posi1 := by omega
      simp [device_pair_visits, this]
  | succ f ih =>
    have e : f + 1 + extra = (f + extra) + 1 := by omega
    rw [e]
    simp only [device_pair_visits]
    split
    · rw [ih (start + B) (by omega)]
    · rfl

theorem device_pair_loop_eq_visits {T P : Type} (cs : ConfSpace T P) (conf : Nat → Int) (B posi1 : Nat)
    (frag1 : Int) (fuel start : Nat) :
    device_pair_loop cs conf B posi1 frag1 fuel start =
      (device_pair_visits B posi1 fuel start).flatMap (pair_loop_body cs conf posi1 frag1) := by
  induction fuel generalizing start with
  | zero => rfl
  | succ f ih =>
    simp only [device_pair_loop, device_pair_visits]
    split
    · rw [ih (start + B), List.flatMap_cons]
      rfl
    · rfl

theorem host_pair_loop_eq_visits {T P : Type} (cs : ConfSpace T P) (conf : Nat → Int) (posi1 : Nat)
    (frag1 : Int) (n : Nat) :
    host_pair_loop cs conf posi1 frag1 n =
      (host_pair_visits n).flatMap (pair_loop_body cs conf posi1 frag1) := by
  induction n with
  | zero => rfl
  | succ n ih =>
    simp only [host_pair_loop, host_pair_visits, List.flatMap_append, ih, List.flatMap_cons,
      List.flatMap_nil, List.append_nil]
    rfl

theorem mem_host_pair_visits (n q : Nat) : q ∈ host_pair_visits n ↔ q < n := by
  induction n with
  | zero => simp [host_pair_visits]
  | succ n ih =>
    simp only [host_pair_visits, List.mem_append, ih, List.mem_singleton]
    omega

/-- C12: in a block of B threads, B at least 1, the strided loop over the
earlier positions of a position posi1 shares these positions among the threads:
the thread of rank t visits the positions below posi1 that leave remainder t
modulo B, each once; every position below posi1 is visited by the thread of rank
posi2 mod B and by no other thread; the positions the threads visit are, taken
together, the positions the sequential loop visits. The stores of a loop are
the stores of its body at the positions it visits, so a pair slot is stored into
by at most one thread, and the stores of the threads are, taken together, the
stores of the sequential loop. -/
theorem C12_strided_pair_loop {T P : Type} (cs : ConfSpace T P) (conf : Nat → Int) (B : Nat)
    (hB : 1 ≤ B) (posi1 : Nat) (frag1 : Int) :
    (∀ t, t < B → ∀ q, q ∈ device_pair_visits B posi1 posi1 t ↔ q < posi1 ∧ q % B = t) ∧
    (∀ t, t < B → (device_pair_visits B posi1 posi1 t).Nodup) ∧
    (∀ q, q < posi1 → q % B < B ∧ q ∈ device_pair_visits B posi1 posi1 (q % B) ∧
      ∀ t, t < B → q ∈ device_pair_visits B posi1 posi1 t → t = q % B) ∧
    (∀ q, q ∈ host_pair_visits posi1 ↔ ∃ t, t < B ∧ q ∈ device_pair_visits B posi1 posi1 t) ∧
    (∀ t, device_pair_loop cs conf B posi1 frag1 posi1 t =
      (device_pair_visits B posi1 posi1 t).flatMap (pair_loop_body cs conf posi1 frag1)) ∧
    host_pair_loop cs conf posi1 frag1 posi1 =
      (host_pair_visits posi1).flatMap (pair_loop_body cs conf posi1 frag1) ∧
    (∀ t t2, t < B → t2 < B → ∀ (k : Int) (v v2 : P),
      Store.atom_pairs k v ∈ device_pair_loop cs conf B posi1 frag1 posi1 t →
      Store.atom_pairs k v2 ∈ device_pair_loop cs conf B posi1 frag1 posi1 t2 → t = t2) ∧
    (∀ w, w ∈ host_pair_loop cs conf posi1 frag1 posi1 ↔
      ∃ t, t < B ∧ w ∈ device_pair_loop cs conf B posi1 frag1 posi1 t) ∧
    (∀ t extra, device_pair_visits B posi1 (posi1 + extra) t =
      device_pair_visits B posi1 posi1 t) := by
  have hB0 : 0 < B := by omega
  have hvis : ∀ t, t < B → ∀ q, q ∈ device_pair_visits B posi1 posi1 t ↔
      q < posi1 ∧ q % B = t := by
    intro t ht q
    rw [mem_device_pair_visits B hB0 posi1 posi1 t (by omega), Nat.mod_eq_of_lt ht]
    constructor
    · rintro ⟨h1, _, h3⟩
      exact ⟨h1, h3⟩
    · rintro ⟨h1, h3⟩
      refine ⟨h1, ?_, h3⟩
      rw [← h3]
      exact Nat.mod_le q B
  have hloop : ∀ t, t < B → ∀ w, w ∈ device_pair_loop cs conf B posi1 frag1 posi1 t ↔
      ∃ q, q < posi1 ∧ q % B = t ∧ conf q ≥ 0 ∧
        w = Store.atom_pairs (cs.index_pos_pos posi1 q)
          (cs.get_pos_pos_pairs posi1 frag1 q (selected cs conf q).frag_index) := by
    intro t ht w
    rw [mem_device_pair_loop cs conf B hB0 posi1 frag1 posi1 t (by omega), Nat.mod_eq_of_lt ht]
    constructor
    · rintro ⟨q, h1, _, h3, h4, h5⟩
      exact ⟨q, h1, h3, h4, h5⟩
    · rintro ⟨q, h1, h3, h4, h5⟩
      refine ⟨q, h1, ?_, h3, h4, h5⟩
      rw [← h3]
      exact Nat.mod_le q B
  refine ⟨hvis, ?_, ?_, ?_, ?_, ?_, ?_, ?_, ?_⟩
  · intro t _
    exact device_pair_visits_nodup B hB0 posi1 posi1 t
  · intro q hq
    refine ⟨Nat.mod_lt q hB0, (hvis (q % B) (Nat.mod_lt q hB0) q).2 ⟨hq, rfl⟩, ?_⟩
    intro t ht hmem
    exact ((hvis t ht q).1 hmem).2.symm
  · intro q
    rw [mem_host_pair_visits]
    constructor
    · intro hq
      exact ⟨q % B, Nat.mod_lt q hB0, (hvis (q % B) (Nat.mod_lt q hB0) q).2 ⟨hq, rfl⟩⟩
    · rintro ⟨t, ht, hmem⟩
      exact ((hvis t ht q).1 hmem).1
  · intro t
    exact device_pair_loop_eq_visits cs conf B posi1 frag1 posi1 t
  · exact host_pair_loop_eq_visits cs conf posi1 frag1 posi1
  · intro t t2 ht ht2 k v v2 h1 h2
    obtain ⟨q, hq, hqt, _, hw⟩ := (hloop t ht _).1 h1
    obtain ⟨q2, hq2, hqt2, _, hw2⟩ := (hloop t2 ht2 _).1 h2
    simp only [Store.atom_pairs.injEq] at hw hw2
    have := (index_pos_pos_inj cs hq hq2 (hw.1.symm.trans hw2.1)).2
    subst this
    rw [← hqt, ← hqt2]
  · intro w
    rw [mem_host_pair_loop]
    constructor
    · rintro ⟨q, hq, hc, hw⟩
      exact ⟨q % B, Nat.mod_lt q hB0, (hloop (q % B) (Nat.mod_lt q hB0) w).2 ⟨q, hq, rfl, hc, hw⟩⟩
    · rintro ⟨t, ht, hmem⟩
      obtain ⟨q, hq, _, hc, hw⟩ := (hloop t ht w).1 hmem
      exact ⟨q, hq, hc, hw⟩
  · intro t extra
    exact device_pair_visits_fuel B hB0 posi1 posi1 extra t (by omega)

theorem C12_strided_pair_loop_witness :
    (1 ≤ 2 ∧ 1 < 2 ∧ 3 < 5) ∧
    (3 ∈ device_pair_visits 2 5 5 1 ↔ 3 < 5 ∧ 3 % 2 = 1) ∧
    (3 % 2 < 2 ∧ 3 ∈ device_pair_visits 2 5 5 (3 % 2) ∧
      ∀ t, t < 2 → 3 ∈ device_pair_visits 2 5 5 t → t = 3 % 2) ∧
    device_pair_visits 2 5 5 1 = [1, 3] ∧ device_pair_visits 2 5 5 0 = [0, 2, 4] :=
  ⟨by decide,
    (C12_strided_pair_loop example_space example_conf 2 (by decide) 5 0).1 1 (by decide) 3,
    (C12_strided_pair_loop example_space example_conf 2 (by decide) 5 0).2.2.1 3 (by decide),
    by decide, by decide⟩

/-! ## The layout of the atom buffer -/

/-- For a valid assignment vector, every store of the host constructor into the
atom buffer targets a slot of the layout. -/
theorem host_store_atoms_range {T P : Type} [Zero T] (cs : ConfSpace T P) (conf : Nat → Int)
    (hv : valid_conf cs conf) (i : Int) (v : Real3 T)
    (h : Store.atoms i v ∈ host_stores cs conf) :
    0 ≤ i ∧ i < (layout_offset cs cs.num_pos : Int) := by
  rw [mem_host_stores, host_store_atoms_iff] at h
  rcases h with ⟨a, h1, h2⟩ | ⟨p, hp, h⟩
  · have := get?_some_lt h1
    have := layout_offset_static_le cs cs.num_pos
    omega
  · have h1 := host_pos_store_atoms_ge cs conf p i v h
    have h2 := host_pos_store_atoms_lt cs conf p (hv p hp) i v h
    have h3 := layout_offset_mono cs (show p + 1 ≤ cs.num_pos by omega)
    omega

/-- C13: when every selected conformation has at most the maximum atom count of
its position and max_num_conf_atoms is the number of static atoms plus the
maximum atom counts of all positions, every store of sequential construction
into the coordinate buffer targets an index from 0 up to, and not including,
max_num_conf_atoms, and every such index is stored into, so that the buffer
does not depend on what it held before; the vector with no position assigned
satisfies the first precondition. -/
theorem C13_buffer_initialised {T P : Type} [Zero T] (cs : ConfSpace T P) (conf : Nat → Int)
    (hsize : cs.max_num_conf_atoms = (cs.static_atom_coords.length : Int) +
      Finset.sum (Finset.range cs.num_pos) (fun q => (cs.max_num_atoms q : Int))) :
    (valid_conf cs conf →
      (∀ (i : Int) (v : Real3 T), Store.atoms i v ∈ host_stores cs conf →
        0 ≤ i ∧ i < cs.max_num_conf_atoms) ∧
      (∀ i : Int, 0 ≤ i → i < cs.max_num_conf_atoms →
        ∃ v, Store.atoms i v ∈ host_stores cs conf) ∧
      (∀ (fresh fresh2 : Arrays T P) (i : Int), 0 ≤ i → i < cs.max_num_conf_atoms →
        (Assignment.construct cs conf fresh).arrays.atoms i =
          (Assignment.construct cs conf fresh2).arrays.atoms i)) ∧
    ((∀ p, p < cs.num_pos → conf p < 0) → valid_conf cs conf) := by
  rw [← layout_offset_eq_sum] at hsize
  constructor
  · intro hv
    refine ⟨?_, ?_, ?_⟩
    · intro i v h
      rw [hsize]
      exact host_store_atoms_range cs conf hv i v h
    · intro i h0 h
      rw [hsize] at h
      exact host_atoms_covered cs conf i h0 h
    · intro fresh fresh2 i h0 h
      rw [hsize] at h
      obtain ⟨v, hmem⟩ := host_atoms_covered cs conf i h0 h
      exact run_same_at_of_written _ fresh fresh2 (Loc.atoms i) ⟨_, hmem, rfl⟩
  · intro hall p hp hc
    have := hall p hp
    omega

theorem C13_buffer_initialised_witness :
    (example_space.max_num_conf_atoms = (example_space.static_atom_coords.length : Int) +
        Finset.sum (Finset.range example_space.num_pos)
          (fun q => (example_space.max_num_atoms q : Int)) ∧
      valid_conf example_space example_conf ∧ (0 : Int) ≤ 6 ∧
      (6 : Int) < example_space.max_num_conf_atoms) ∧
    ∃ v, Store.atoms 6 v ∈ host_stores example_space example_conf :=
  ⟨⟨by decide, example_valid, by decide, by decide⟩,
    ((C13_buffer_initialised example_space example_conf (by decide)).1 example_valid).2.1 6
      (by decide) (by decide)⟩

/-- C14: after construction, get_index is injective on the pairs of a position
and a local atom index below the maximum atom count of the position, no such
index is the get_static_index of a static atom, the static block lies below
every position block, and the block of a position lies below the block of
every later position. -/
theorem C14_index_injective {T P : Type} [Zero T] (cs : ConfSpace T P) (conf : Nat → Int)
    (fresh : Arrays T P) :
    (∀ p q a b : Nat, p < cs.num_pos → q < cs.num_pos →
      a < cs.max_num_atoms p → b < cs.max_num_atoms q →
      (Assignment.construct cs conf fresh).get_index p a =
        (Assignment.construct cs conf fresh).get_index q b → p = q ∧ a = b) ∧
    (∀ p a s : Nat, p < cs.num_pos → a < cs.max_num_atoms p →
      s < cs.static_atom_coords.length →
      (Assignment.construct cs conf fresh).get_index p a ≠
        (Assignment.construct cs conf fresh).get_static_index s ∧
      (Assignment.construct cs conf fresh).get_static_index s <
        (Assignment.construct cs conf fresh).get_index p a) ∧
    (∀ p q a b : Nat, p < q → q < cs.num_pos → a < cs.max_num_atoms p →
      (Assignment.construct cs conf fresh).get_index p a <
        (Assignment.construct cs conf fresh).get_index q b) := by
  have hidx : ∀ p a : Nat, p < cs.num_pos →
      (Assignment.construct cs conf fresh).get_index p a =
        (layout_offset cs p : Int) + (a : Int) := by
    intro p a hp
    simp only [Assignment.get_index, Assignment.construct]
    rw [host_index_offsets cs conf fresh p hp]
  have hlt : ∀ p q a b : Nat, p < q → q < cs.num_pos → a < cs.max_num_atoms p →
      (Assignment.construct cs conf fresh).get_index p a <
        (Assignment.construct cs conf fresh).get_index q b := by
    intro p q a b hpq hq ha
    rw [hidx p a (by omega), hidx q b hq]
    have h1 := layout_offset_mono cs (show p + 1 ≤ q by omega)
    simp only [layout_offset] at h1
    omega
  refine ⟨?_, ?_, hlt⟩
  · intro p q a b hp hq ha hb h
    rcases Nat.lt_trichotomy p q with hl | he | hg
    · have := hlt p q a b hl hq ha
      omega
    · subst he
      rw [hidx p a hp, hidx p b hp] at h
      exact ⟨rfl, by omega⟩
    · have := hlt q p b a hg hp hb
      omega
  · intro p a s hp ha hs
    rw [hidx p a hp]
    simp only [Assignment.get_static_index]
    have := layout_offset_static_le cs p
    constructor
    · omega
    · omega

theorem C14_index_injective_witness :
    ((0 : Nat) < 2 ∧ 2 < example_space.num_pos ∧ 1 < example_space.max_num_atoms 0) ∧
    (Assignment.construct example_space example_conf example_fresh).get_index
        ((0 : Nat) : Int) ((1 : Nat) : Int) <
      (Assignment.construct example_space example_conf example_fresh).get_index
        ((2 : Nat) : Int) ((0 : Nat) : Int) :=
  ⟨by decide,
    (C14_index_injective example_space example_conf example_fresh).2.2 0 2 1 0 (by decide)
      (by decide) (by decide)⟩

end osprey
